import Mathlib

/-!
# Verification of the hybrid retrieval engine

A shallow embedding of the repository's core components — the semantic
chunker (`notion_rag/chunker.py`), the SQLite-backed store
(`notion_rag/database.py`), weighted reciprocal-rank fusion
(`notion_rag/hybrid_search.py`) and the retrieval facade
(`notion_rag/rag.py`) — together with theorems settling the behavioural
claims of the specification.

Texts are modelled as `List Char` (Python `len` counts code points, as
does `List.length`).  Real-valued scores are modelled as `ℚ`.  SQL result
ordering produced by external ranking functions (FTS5 BM25, sqlite-vec
k-NN) is modelled by oracle ranking functions; `LIMIT` is `List.take`.
-/

namespace NotionRag

/-- ASCII whitespace as recognised by Python's `str.strip` / `\s`. -/
def isPySpace (c : Char) : Bool :=
  c == ' ' || c == '\t' || c == '\n' || c == '\r' ||
    c == Char.ofNat 11 || c == Char.ofNat 12

/-- Python `str.strip()`: remove leading and trailing whitespace. -/
def pyStrip (s : List Char) : List Char :=
  ((s.dropWhile isPySpace).reverse.dropWhile isPySpace).reverse

/-- The non-whitespace content of a text: the residue that chunking must
preserve. -/
def dewhite (s : List Char) : List Char :=
  s.filter (fun c => !isPySpace c)

/-- `chunker.ChunkConfig`. -/
structure ChunkConfig where
  maxChunkSize : Nat := 500
  minChunkSize : Nat := 50
  overlap : Nat := 50
  shortContentThreshold : Nat := 500
deriving DecidableEq

/-- The default chunking configuration. -/
def defaultConfig : ChunkConfig := {}

/-- Helper for the paragraph splitter: given the characters following a
`'\n'`, decide whether the regex `\n\s*\n+` matches here, and if so how
many further characters the match consumes.  The greedy `\s*` backtracks
so that `\n+` starts at the last newline of the maximal whitespace run;
`\n+` then consumes exactly that newline. -/
def sepSkip (rest : List Char) : Option Nat :=
  let w := rest.takeWhile isPySpace
  match w.reverse.findIdx? (fun c => c == '\n') with
  | none => none
  | some j => some (w.length - j)

/-- Recursive core of `SemanticChunker._split_paragraphs`:
`re.split(r"\n\s*\n+", text)`, scanning left to right for separator
matches. -/
def splitParasAux (acc : List Char) (s : List Char) : List (List Char) :=
  match s with
  | [] => [acc.reverse]
  | c :: rest =>
    if c == '\n' then
      match sepSkip rest with
      | some k => acc.reverse :: splitParasAux [] (rest.drop k)
      | none => splitParasAux (c :: acc) rest
    else splitParasAux (c :: acc) rest
termination_by s.length
decreasing_by
  · simp only [List.length_drop, List.length_cons]
    omega
  · simp
  · simp

/-- `SemanticChunker._split_paragraphs`: split on blank-line separators,
strip each piece, drop empty pieces. -/
def splitParagraphs (text : List Char) : List (List Char) :=
  ((splitParasAux [] text).map pyStrip).filter (fun p => !p.isEmpty)

/-- Recursive core of `SemanticChunker._split_sentences`:
`re.split(r"(?<=[.!?])\s+", text)` — split at maximal whitespace runs
preceded by sentence-ending punctuation. -/
def splitSentsAux (prev : Option Char) (acc : List Char) (s : List Char) :
    List (List Char) :=
  match s with
  | [] => [acc.reverse]
  | c :: rest =>
    if isPySpace c && (prev == some '.' || prev == some '!' || prev == some '?') then
      acc.reverse :: splitSentsAux none [] (rest.dropWhile isPySpace)
    else splitSentsAux (some c) (c :: acc) rest
termination_by s.length
decreasing_by
  · have := (List.dropWhile_sublist (l := rest) (p := isPySpace)).length_le
    simp only [List.length_cons]
    omega
  · simp

/-- `SemanticChunker._split_sentences`. -/
def splitSentences (text : List Char) : List (List Char) :=
  ((splitSentsAux none [] text).map pyStrip).filter (fun p => !p.isEmpty)

/-- Python `text.find(c, start)`: index of the first occurrence of `c` at
position `start` or later. -/
def strFind (t : List Char) (c : Char) (start : Nat) : Option Nat :=
  match (t.drop start).findIdx? (fun x => x == c) with
  | some j => some (start + j)
  | none => none

/-- `SemanticChunker._get_overlap`.  The inner `if` in the not-found case
reflects Python's `text[-overlap:]`, which is the whole string when
`overlap = 0`. -/
def getOverlap (cfg : ChunkConfig) (text : List Char) : List Char :=
  if text.length ≤ cfg.overlap then text
  else
    match strFind text ' ' (text.length - cfg.overlap) with
    | some idx => text.drop (idx + 1)
    | none => if cfg.overlap = 0 then text else text.drop (text.length - cfg.overlap)

/-- The sentence-packing loop inside `SemanticChunker._merge_and_split`
(the oversized-paragraph branch): greedily pack sentences into chunks of
at most `maxChunkSize` characters, joined by single spaces.  The state is
(emitted chunks, running sentence chunk). -/
def packSentences (cfg : ChunkConfig) (ss : List (List Char))
    (st : List (List Char) × List Char) : List (List Char) × List Char :=
  match ss with
  | [] => st
  | sen :: rest =>
    let cks := st.1
    let sc := st.2
    if sc.length + sen.length ≤ cfg.maxChunkSize then
      packSentences cfg rest (cks, if sc.isEmpty then sen else sc ++ ' ' :: sen)
    else
      packSentences cfg rest
        ((if sc.isEmpty then cks else cks ++ [pyStrip sc]), sen)

/-- One iteration of the paragraph loop in
`SemanticChunker._merge_and_split`.  State: (emitted chunks, running
chunk). -/
def mergeStep (cfg : ChunkConfig) (st : List (List Char) × List Char)
    (para : List Char) : List (List Char) × List Char :=
  let cks := st.1
  let cur := st.2
  if cfg.maxChunkSize < para.length then
    let cks1 := if cur.isEmpty then cks else cks ++ [pyStrip cur]
    packSentences cfg (splitSentences para) (cks1, [])
  else if cfg.maxChunkSize < cur.length + para.length + 2 then
    if cur.isEmpty then (cks, para)
    else
      let ov := getOverlap cfg cur
      (cks ++ [pyStrip cur], if ov.isEmpty then para else ov ++ ' ' :: para)
  else
    (cks, if cur.isEmpty then para else cur ++ '\n' :: '\n' :: para)

/-- The paragraph loop of `_merge_and_split` folded over all paragraphs. -/
def mergeFold (cfg : ChunkConfig) (paras : List (List Char)) :
    List (List Char) × List Char :=
  paras.foldl (mergeStep cfg) ([], [])

/-- `SemanticChunker._merge_and_split`: run the paragraph loop, then emit
the final running chunk only if its stripped length reaches
`minChunkSize`. -/
def mergeAndSplit (cfg : ChunkConfig) (paras : List (List Char)) :
    List (List Char) :=
  let st := mergeFold cfg paras
  if !st.2.isEmpty && cfg.minChunkSize ≤ (pyStrip st.2).length then
    st.1 ++ [pyStrip st.2]
  else st.1

/-- `SemanticChunker.chunk` (after `text = text.strip()`, `text` below is
always the stripped input). -/
def chunk (cfg : ChunkConfig) (text : List Char) : List (List Char) :=
  if (pyStrip text).isEmpty then []
  else if (pyStrip text).length ≤ cfg.shortContentThreshold then [pyStrip text]
  else mergeAndSplit cfg (splitParagraphs (pyStrip text))

/-! ## Search results and reciprocal-rank fusion (`hybrid_search.py`) -/

/-- `models.SearchResult`.  Scores are modelled in `ℚ`. -/
structure SearchResult where
  chunk_id : Nat
  post_id : String
  content : String
  score : ℚ
  bm25_score : Option ℚ := none
  semantic_score : Option ℚ := none
  title : Option String := none
  category : Option String := none
deriving DecidableEq

/-- The per-chunk record of the `scores` dictionary in
`HybridSearch._reciprocal_rank_fusion`. -/
structure RRFEntry where
  rrf_score : ℚ
  result : SearchResult
  bm25_rank : Option Nat
  bm25_score : Option ℚ
  semantic_rank : Option Nat
  semantic_score : Option ℚ
deriving DecidableEq

/-- Python dict assignment `d[k] = v` on an insertion-ordered dict:
overwrite in place if the key is present, else append. -/
def dictSet (d : List (Nat × RRFEntry)) (k : Nat) (v : RRFEntry) :
    List (Nat × RRFEntry) :=
  if d.any (fun kv => kv.1 == k) then
    d.map (fun kv => if kv.1 == k then (k, v) else kv)
  else d ++ [(k, v)]

/-- The entry created for a BM25 result at 1-based `rank`. -/
def bm25Entry (w kq : ℚ) (rank : Nat) (r : SearchResult) : RRFEntry :=
  { rrf_score := w * (1 / (kq + rank))
    result := r
    bm25_rank := some rank
    bm25_score := r.bm25_score
    semantic_rank := none
    semantic_score := none }

/-- The entry created for a semantic result at 1-based `rank` whose chunk
was absent from the BM25 list. -/
def semEntry (w kq : ℚ) (rank : Nat) (r : SearchResult) : RRFEntry :=
  { rrf_score := w * (1 / (kq + rank))
    result := r
    bm25_rank := none
    bm25_score := none
    semantic_rank := some rank
    semantic_score := r.semantic_score }

/-- First pass of `_reciprocal_rank_fusion`: add every BM25 result with
weight `1 - alpha`, enumerating ranks from `rank`. -/
def addLex (w kq : ℚ) (rank : Nat) (rs : List SearchResult)
    (d : List (Nat × RRFEntry)) : List (Nat × RRFEntry) :=
  match rs with
  | [] => d
  | r :: rest => addLex w kq (rank + 1) rest (dictSet d r.chunk_id (bm25Entry w kq rank r))

/-- The in-place update the semantic pass applies to the entry of a chunk
already present in the dictionary: add the weighted reciprocal-rank
contribution and record the semantic rank and score. -/
def semUpd (w kq : ℚ) (rank : Nat) (r : SearchResult) (kv : Nat × RRFEntry) :
    Nat × RRFEntry :=
  if kv.1 == r.chunk_id then
    (kv.1, { kv.2 with
              rrf_score := kv.2.rrf_score + w * (1 / (kq + rank))
              semantic_rank := some rank
              semantic_score := r.semantic_score })
  else kv

/-- Second pass of `_reciprocal_rank_fusion`: add every semantic result
with weight `alpha`, combining with an existing entry when present. -/
def addSem (w kq : ℚ) (rank : Nat) (rs : List SearchResult)
    (d : List (Nat × RRFEntry)) : List (Nat × RRFEntry) :=
  match rs with
  | [] => d
  | r :: rest =>
    let d' :=
      if d.any (fun kv => kv.1 == r.chunk_id) then d.map (semUpd w kq rank r)
      else d ++ [(r.chunk_id, semEntry w kq rank r)]
    addSem w kq (rank + 1) rest d'

/-- The completed `scores` dictionary of `_reciprocal_rank_fusion`. -/
def rrfScores (alpha kq : ℚ) (bm25Results semanticResults : List SearchResult) :
    List (Nat × RRFEntry) :=
  addSem alpha kq 1 semanticResults (addLex (1 - alpha) kq 1 bm25Results [])

/-- The comparison used by `sorted(..., key=rrf_score, reverse=True)`:
descending by fused score.  Python's sort is stable; `List.insertionSort`
with this relation places earlier entries first on ties, which is exactly
stable descending order. -/
def scoreGE (a b : Nat × RRFEntry) : Prop :=
  b.2.rrf_score ≤ a.2.rrf_score

instance : DecidableRel scoreGE := fun _ _ => by
  unfold scoreGE; infer_instance

instance : IsTotal (Nat × RRFEntry) scoreGE :=
  ⟨fun a b => (le_total b.2.rrf_score a.2.rrf_score).elim Or.inl Or.inr⟩

instance : IsTrans (Nat × RRFEntry) scoreGE :=
  ⟨fun _ _ _ h1 h2 => le_trans h2 h1⟩

/-- The final `SearchResult` built from a fused entry. -/
def rebuild (kv : Nat × RRFEntry) : SearchResult :=
  { chunk_id := kv.2.result.chunk_id
    post_id := kv.2.result.post_id
    content := kv.2.result.content
    score := kv.2.rrf_score
    bm25_score := kv.2.bm25_score
    semantic_score := kv.2.semantic_score
    title := kv.2.result.title
    category := kv.2.result.category }

/-- `HybridSearch._reciprocal_rank_fusion`. -/
def rrf (alpha kq : ℚ) (bm25Results semanticResults : List SearchResult)
    (limit : Nat) : List SearchResult :=
  (((rrfScores alpha kq bm25Results semanticResults).insertionSort scoreGE).take
      limit).map rebuild

/-- The store's two ranked search primitives, as seen by the search layer.
`ftsFull q` is the full BM25-ordered result list for `q` (the SQL query
without its `LIMIT`), produced by the external FTS5 ranking; likewise
`vecFull` for sqlite-vec k-NN.  `database.py` contributes the `LIMIT`
truncation and the disabled-index fallback. -/
structure SearchIndex where
  ftsFull : String → List SearchResult
  vecFull : List ℚ → List SearchResult
  vecEnabled : Bool

/-- `VectorDatabase.fts_search` with its SQL `LIMIT`. -/
def ftsSearch (ix : SearchIndex) (q : String) (limit : Nat) : List SearchResult :=
  (ix.ftsFull q).take limit

/-- `VectorDatabase.vector_search`: empty when the vector index is
unavailable, otherwise the `limit` nearest chunks. -/
def vectorSearch (ix : SearchIndex) (e : List ℚ) (limit : Nat) : List SearchResult :=
  if ix.vecEnabled then (ix.vecFull e).take limit else []

/-- `hybrid_search.HybridSearch`. -/
structure HybridSearch where
  ix : SearchIndex
  embed : String → List ℚ
  alpha : ℚ
  rrf_k : ℚ

/-- The BM25 candidate list fetched by `HybridSearch.search`
(`fetch_limit = limit * 3`). -/
def bm25Of (hs : HybridSearch) (q : String) (limit : Nat) : List SearchResult :=
  ftsSearch hs.ix q (limit * 3)

/-- The semantic candidate list fetched by `HybridSearch.search`. -/
def semOf (hs : HybridSearch) (q : String) (limit : Nat) : List SearchResult :=
  if hs.ix.vecEnabled then vectorSearch hs.ix (hs.embed q) (limit * 3) else []

/-- `HybridSearch.search`: fetch `3 × limit` candidates from each
primitive, fall back to a single list when the other is empty, otherwise
fuse. -/
def HybridSearch.search (hs : HybridSearch) (q : String) (limit : Nat) :
    List SearchResult :=
  let b := bm25Of hs q limit
  let s := semOf hs q limit
  if s.isEmpty then b.take limit
  else if b.isEmpty then s.take limit
  else rrf hs.alpha hs.rrf_k b s limit

/-! Specification-side description of the fused score, written from the
spec's words: each appearance of a chunk in a list contributes
`weight / (k + rank)` at its 1-based rank. -/

/-- The 1-based rank of a chunk in a result list, if present. -/
def rankOf (l : List SearchResult) (id : Nat) : Option Nat :=
  (l.findIdx? (fun r => r.chunk_id == id)).map (· + 1)

/-- The contribution of one list to a chunk's fused score. -/
def contrib (w kq : ℚ) (l : List SearchResult) (id : Nat) : ℚ :=
  match rankOf l id with
  | some r => w / (kq + r)
  | none => 0

/-- The fused score the specification assigns to a chunk. -/
def fusedScore (alpha kq : ℚ) (b s : List SearchResult) (id : Nat) : ℚ :=
  contrib (1 - alpha) kq b id + contrib alpha kq s id

/-- The candidate chunk ids of a fusion, in dictionary insertion order. -/
def candIds (b s : List SearchResult) : List Nat :=
  b.map (fun r => r.chunk_id) ++
    (s.map (fun r => r.chunk_id)).filter
      (fun i => !(b.map (fun r => r.chunk_id)).contains i)

/-! ## The persisted store (`database.py`) -/

/-- `models.Post`.  Timestamps are abstract instants (`Nat`); hashtags
keep their list form (the JSON round-trip through the `hashtags` column
is the identity). -/
structure Post where
  id : String
  notion_url : Option String := none
  title : String
  content : String
  category : Option String := none
  hashtags : List String := []
  status : String := "draft"
  posted_at : Option Nat := none
  mastodon_url : Option String := none
  created_at : Nat
  updated_at : Nat
deriving DecidableEq

/-- A row of the `chunks` table. -/
structure ChunkRow where
  id : Nat
  post_id : String
  chunk_index : Nat
  content : String
deriving DecidableEq

/-- The state of a `VectorDatabase`: the `posts`, `chunks` and
`embeddings` tables, the AUTOINCREMENT counter, the connection flag and
the detected-at-startup vector-extension flag.  The FTS index is kept in
sync with `chunks` by triggers, so it needs no separate field. -/
structure DBState where
  connected : Bool
  posts : List Post
  chunks : List ChunkRow
  embeddings : List (Nat × List ℚ)
  nextChunkId : Nat
  vecEnabled : Bool
deriving DecidableEq

/-- `VectorDatabase.upsert_post`: insert, or on conflict overwrite every
column except `created_at`. -/
def upsertPost (db : DBState) (p : Post) : Except String DBState :=
  if !db.connected then .error "Database not connected"
  else .ok { db with posts :=
    (if db.posts.any (fun q => q.id == p.id) then
      db.posts.map (fun q => if q.id == p.id then { p with created_at := q.created_at } else q)
    else db.posts ++ [p]) }

/-- `VectorDatabase.get_post`. -/
def getPost (db : DBState) (pid : String) : Except String (Option Post) :=
  if !db.connected then .error "Database not connected"
  else .ok (db.posts.find? (fun q => q.id == pid))

/-- `VectorDatabase.is_posted`. -/
def isPosted (db : DBState) (pid : String) : Except String Bool :=
  if !db.connected then .error "Database not connected"
  else .ok (match db.posts.find? (fun q => q.id == pid) with
    | some q => q.status == "posted"
    | none => false)

/-- `VectorDatabase.mark_as_posted`.  `now` is the current time
(`datetime.utcnow()`); the stored `posted_at` defaults to it. -/
def markAsPosted (db : DBState) (pid url : String) (postedAt : Option Nat)
    (now : Nat) : Except String DBState :=
  if !db.connected then .error "Database not connected"
  else .ok { db with posts := db.posts.map (fun q =>
    if q.id == pid then
      { q with status := "posted", mastodon_url := some url,
               posted_at := some (postedAt.getD now), updated_at := now }
    else q) }

/-- `VectorDatabase.insert_chunk`: assign the surrogate key and return it. -/
def insertChunk (db : DBState) (postId : String) (chunkIndex : Nat)
    (content : String) : Except String (Nat × DBState) :=
  if !db.connected then .error "Database not connected"
  else .ok (db.nextChunkId,
    { db with
      chunks := db.chunks ++
        [{ id := db.nextChunkId, post_id := postId, chunk_index := chunkIndex,
           content := content }]
      nextChunkId := db.nextChunkId + 1 })

/-- `VectorDatabase.store_embedding`: a silent no-op when the vector
extension is unavailable, otherwise `INSERT OR REPLACE`. -/
def storeEmbedding (db : DBState) (chunkId : Nat) (v : List ℚ) :
    Except String DBState :=
  if !db.connected then .error "Database not connected"
  else if !db.vecEnabled then .ok db
  else .ok { db with embeddings :=
    if db.embeddings.any (fun kv => kv.1 == chunkId) then
      db.embeddings.map (fun kv => if kv.1 == chunkId then (chunkId, v) else kv)
    else db.embeddings ++ [(chunkId, v)] }

/-- `VectorDatabase.delete_chunks_for_post`: remove the document's
embeddings (when the extension is available) and its chunks. -/
def deleteChunksForPost (db : DBState) (pid : String) : Except String DBState :=
  if !db.connected then .error "Database not connected"
  else
    let ids := (db.chunks.filter (fun c => c.post_id == pid)).map (fun c => c.id)
    .ok { db with
      embeddings :=
        if db.vecEnabled then db.embeddings.filter (fun kv => !ids.contains kv.1)
        else db.embeddings
      chunks := db.chunks.filter (fun c => !(c.post_id == pid)) }

/-- `VectorDatabase.vector_search` at the store level.  `knn` is the
external sqlite-vec k-NN (`WHERE embedding MATCH ? AND k = ?`): given the
embeddings table, a query vector and `k`, it yields at most `k`
`(chunk_id, distance)` pairs ordered by ascending distance.  The store
contributes the disabled-index fallback, the joins and the
`1 − distance` similarity. -/
def vectorSearchDB (knn : List (Nat × List ℚ) → List ℚ → Nat → List (Nat × ℚ))
    (db : DBState) (qe : List ℚ) (limit : Nat) :
    Except String (List SearchResult) :=
  if !db.connected then .error "Database not connected"
  else if !db.vecEnabled then .ok []
  else .ok ((knn db.embeddings qe limit).filterMap (fun cd =>
    match db.chunks.find? (fun c => c.id == cd.1) with
    | none => none
    | some c =>
      match db.posts.find? (fun q => q.id == c.post_id) with
      | none => none
      | some q => some
          { chunk_id := cd.1
            post_id := c.post_id
            content := c.content
            score := 1 - cd.2
            semantic_score := some (1 - cd.2)
            title := some q.title
            category := q.category }))

/-- The invariant of spec §3: a document with status `"posted"` carries a
non-empty published URL. -/
def postedOk (p : Post) : Prop :=
  p.status = "posted" → p.mastodon_url.getD "" ≠ ""

instance (p : Post) : Decidable (postedOk p) := by
  unfold postedOk; infer_instance

/-- Every stored document satisfies `postedOk`. -/
def storeOk (db : DBState) : Prop :=
  ∀ p ∈ db.posts, postedOk p

instance (db : DBState) : Decidable (storeOk db) := by
  unfold storeOk; infer_instance

instance {ε α : Type} [DecidableEq ε] [DecidableEq α] : DecidableEq (Except ε α) :=
  fun a b =>
    match a, b with
    | .ok x, .ok y =>
      if h : x = y then isTrue (by rw [h])
      else isFalse (by intro hh; cases hh; exact h rfl)
    | .error x, .error y =>
      if h : x = y then isTrue (by rw [h])
      else isFalse (by intro hh; cases hh; exact h rfl)
    | .ok _, .error _ => isFalse (by intro hh; cases hh)
    | .error _, .ok _ => isFalse (by intro hh; cases hh)

/-! ## The retrieval facade (`rag.py`) -/

/-- `RAG.find_similar`: look the document up, feed its body to fusion,
filter the source document out and truncate.  `searchFn` is the fusion
search the facade holds (`self.search.search`). -/
def findSimilar (searchFn : String → Nat → List SearchResult) (db : DBState)
    (pid : String) (limit : Nat) : Except String (List SearchResult) :=
  match getPost db pid with
  | .error e => .error e
  | .ok none => .ok []
  | .ok (some p) =>
    .ok (((searchFn p.content (limit + 1)).filter
      (fun r => !(r.post_id == pid))).take limit)

/-! ## Specification-side definitions -/

/-- The overlap seed as the specification describes it: the final `n`
characters of the just-closed chunk, broken at the nearest preceding word
boundary where possible (the part after the first space inside that
window), and the whole chunk when it is no longer than `n`. -/
def specOverlap (n : Nat) (t : List Char) : List Char :=
  if t.length ≤ n then t
  else
    let w := t.drop (t.length - n)
    match w.findIdx? (fun c => c == ' ') with
    | some j => w.drop (j + 1)
    | none => w

/-- `CoversInOrder ps s`: the pieces `ps` occur inside `s` as
non-overlapping contiguous segments, in order.  Used to state that
chunking drops no paragraph content and preserves paragraph order. -/
inductive CoversInOrder : List (List Char) → List Char → Prop
  | nil (s : List Char) : CoversInOrder [] s
  | cons (p : List Char) (ps : List (List Char)) (pre rest : List Char) :
      CoversInOrder ps rest → CoversInOrder (p :: ps) (pre ++ p ++ rest)

/-- The BM25 pass of `_reciprocal_rank_fusion` started on an empty
dictionary: one entry per result, in list order, ranks counted from
`rank`. -/
def bEntries (w kq : ℚ) (rank : Nat) : List SearchResult → List (Nat × RRFEntry)
  | [] => []
  | r :: rest => (r.chunk_id, bm25Entry w kq rank r) :: bEntries w kq (rank + 1) rest

/-- A connected store holding one draft document, used to exhibit that the
store does not enforce the posted-URL invariant. -/
def cexDb : DBState :=
  { connected := true
    posts := [{ id := "p1", title := "t", content := "c",
                created_at := 0, updated_at := 0 }]
    chunks := []
    embeddings := []
    nextChunkId := 1
    vecEnabled := false }

/-- The document of `cexDb` posted with an empty URL at time 0. -/
def cexPostEmptyUrl : Post :=
  { id := "p1", title := "t", content := "c", status := "posted",
    mastodon_url := some "", posted_at := some 0,
    created_at := 0, updated_at := 0 }

/-- The store `cexDb` after `mark_as_posted("p1", "", None)` at time 0:
the document is posted with an empty published URL. -/
def cexDbEmptyUrl : DBState :=
  { cexDb with posts := [cexPostEmptyUrl] }

/-- The document of `cexDb` posted with URL `"u"` at time 5. -/
def cexPostU : Post :=
  { id := "p1", title := "t", content := "c", status := "posted",
    mastodon_url := some "u", posted_at := some 5,
    created_at := 0, updated_at := 5 }

/-- The store `cexDb` after `mark_as_posted("p1", "u", None)` at time 5. -/
def cexDbPosted : DBState :=
  { cexDb with posts := [cexPostU] }

/-- Sample search results for witnesses. -/
def sampleLexA : SearchResult :=
  { chunk_id := 1, post_id := "a", content := "xa", score := 5, bm25_score := some 5 }

/-- Sample search results for witnesses. -/
def sampleLexB : SearchResult :=
  { chunk_id := 2, post_id := "b", content := "xb", score := 4, bm25_score := some 4 }

/-- Sample search results for witnesses. -/
def sampleSemB : SearchResult :=
  { chunk_id := 2, post_id := "b", content := "xb", score := 9/10,
    semantic_score := some (9/10) }

/-- Sample search results for witnesses. -/
def sampleSemC : SearchResult :=
  { chunk_id := 3, post_id := "c", content := "xc", score := 8/10,
    semantic_score := some (8/10) }

/-- A hybrid searcher whose vector index is unavailable. -/
def hsLexOnly : HybridSearch :=
  { ix := { ftsFull := fun _ => [sampleLexA, sampleLexB]
            vecFull := fun _ => []
            vecEnabled := false }
    embed := fun _ => [1]
    alpha := 1/2
    rrf_k := 60 }

/-- A hybrid searcher whose lexical list is empty for every query. -/
def hsSemOnly : HybridSearch :=
  { ix := { ftsFull := fun _ => []
            vecFull := fun _ => [sampleSemB, sampleSemC]
            vecEnabled := true }
    embed := fun _ => [1]
    alpha := 1/2
    rrf_k := 60 }

/-- A small chunking configuration used in witnesses. -/
def cfgW : ChunkConfig :=
  { maxChunkSize := 10, minChunkSize := 3, overlap := 5, shortContentThreshold := 10 }

/-- A hybrid searcher with both lists non-empty. -/
def hsBoth (alpha : ℚ) : HybridSearch :=
  { ix := { ftsFull := fun _ => [sampleLexA, sampleLexB]
            vecFull := fun _ => [sampleSemB, sampleSemC]
            vecEnabled := true }
    embed := fun _ => [1]
    alpha := alpha
    rrf_k := 60 }

/-! ## Supporting lemmas -/

theorem pyStrip_eq_nil_of_space (s : List Char) (h : ∀ c ∈ s, isPySpace c = true) :
    pyStrip s = [] := by
  unfold pyStrip
  have h1 : s.dropWhile isPySpace = [] := by
    rw [List.dropWhile_eq_nil_iff]
    exact fun c hc => h c hc
  simp [h1]

/-! ## C3: empty, whitespace-only and short inputs -/

/-- C3.  `chunk` of the empty string or of a whitespace-only string is
the empty sequence; any text whose trimmed length is at most the
short-content threshold is returned as the single trimmed chunk. -/
theorem chunk_short_content :
    (∀ (cfg : ChunkConfig) (s : List Char), (∀ c ∈ s, isPySpace c = true) →
      chunk cfg s = []) ∧
    (∀ (cfg : ChunkConfig) (s : List Char), pyStrip s ≠ [] →
      (pyStrip s).length ≤ cfg.shortContentThreshold →
      chunk cfg s = [pyStrip s]) := by
  constructor
  · intro cfg s h
    unfold chunk
    simp [pyStrip_eq_nil_of_space s h]
  · intro cfg s h1 h2
    unfold chunk
    simp [h1, h2]

/-- Witness for C3 at `"   "` and `" ab "`. -/
theorem chunk_short_content_witness :
    chunk defaultConfig "   ".data = [] ∧
    chunk defaultConfig " ab ".data = [pyStrip " ab ".data] :=
  ⟨chunk_short_content.1 defaultConfig "   ".data (by decide),
   chunk_short_content.2 defaultConfig " ab ".data (by decide) (by decide)⟩

/-! ## C9: graceful degradation without a vector index -/

/-- C9.  On a connected store without the vector extension,
`store_embedding` is a no-op that succeeds and leaves the state
unchanged, `vector_search` returns an empty list rather than an error,
and chunk insertion still succeeds. -/
theorem no_vector_index_degrades (knn : List (Nat × List ℚ) → List ℚ → Nat → List (Nat × ℚ))
    (db : DBState) (cid : Nat) (v qe : List ℚ) (limit : Nat)
    (pid : String) (cidx : Nat) (content : String)
    (hc : db.connected = true) (hv : db.vecEnabled = false) :
    storeEmbedding db cid v = .ok db ∧
    vectorSearchDB knn db qe limit = .ok [] ∧
    ∃ res, insertChunk db pid cidx content = .ok res := by
  refine ⟨?_, ?_, ?_⟩
  · simp [storeEmbedding, hc, hv]
  · simp [vectorSearchDB, hc, hv]
  · exact ⟨(db.nextChunkId,
      { db with
        chunks := db.chunks ++ [⟨db.nextChunkId, pid, cidx, content⟩]
        nextChunkId := db.nextChunkId + 1 }), by simp [insertChunk, hc]⟩

/-- Witness for C9 on the concrete store `cexDb`. -/
theorem no_vector_index_degrades_witness :
    storeEmbedding cexDb 1 [1] = .ok cexDb ∧
    vectorSearchDB (fun _ _ _ => []) cexDb [1] 5 = .ok [] ∧
    ∃ res, insertChunk cexDb "p1" 0 "c" = .ok res :=
  no_vector_index_degrades (fun _ _ _ => []) cexDb 1 [1] [1] 5 "p1" 0 "c" rfl rfl

/-! ## C10: `find_similar` on a missing document -/

/-- C10.  For any search function and any identifier not present among
the stored documents of a connected store, `find_similar` returns the
empty list without error; it is independent of the search function, so
no search is consulted, and the (purely functional) store state is
untouched. -/
theorem find_similar_missing (searchFn : String → Nat → List SearchResult)
    (db : DBState) (pid : String) (limit : Nat)
    (hc : db.connected = true) (habs : ∀ p ∈ db.posts, p.id ≠ pid) :
    findSimilar searchFn db pid limit = .ok [] := by
  have hfind : db.posts.find? (fun q => q.id == pid) = none := by
    rw [List.find?_eq_none]
    intro q hq
    simpa using habs q hq
  unfold findSimilar getPost
  simp [hc, hfind]

/-- Witness for C10 on `cexDb` with an absent identifier. -/
theorem find_similar_missing_witness :
    findSimilar (fun _ _ => [sampleLexA]) cexDb "zz" 5 = .ok [] :=
  find_similar_missing (fun _ _ => [sampleLexA]) cexDb "zz" 5 rfl (by decide)

/-! ## C2: fusion fallback when one list is empty -/

/-- C2.  When the semantic candidate list is empty, hybrid search is
exactly `lexical_search(query, limit)`; when the lexical list is empty
(and the semantic one is not), it is exactly
`vector_search(embed(query), limit)`. -/
theorem search_fallback (hs : HybridSearch) (q : String) (limit : Nat) :
    (semOf hs q limit = [] → hs.search q limit = ftsSearch hs.ix q limit) ∧
    (bm25Of hs q limit = [] → semOf hs q limit ≠ [] →
      hs.search q limit = vectorSearch hs.ix (hs.embed q) limit) := by
  constructor
  · intro h
    unfold HybridSearch.search
    simp only [h, List.isEmpty_nil, if_pos]
    unfold bm25Of ftsSearch
    rw [List.take_take]
    congr 1
    omega
  · intro hb hsne
    have hen : hs.ix.vecEnabled = true := by
      by_contra h
      apply hsne
      unfold semOf
      simp [Bool.not_eq_true] at h
      simp [h]
    unfold HybridSearch.search
    rw [if_neg (by simpa [List.isEmpty_iff] using hsne), if_pos (by simp [hb])]
    unfold semOf vectorSearch
    simp only [hen, if_pos]
    rw [List.take_take]
    congr 1
    omega

/-- Witness for C2: a disabled vector index falls back to lexical, an
empty lexical list falls back to semantic. -/
theorem search_fallback_witness :
    hsLexOnly.search "q" 1 = ftsSearch hsLexOnly.ix "q" 1 ∧
    hsSemOnly.search "q" 1 = vectorSearch hsSemOnly.ix (hsSemOnly.embed "q") 1 :=
  ⟨(search_fallback hsLexOnly "q" 1).1 rfl,
   (search_fallback hsSemOnly "q" 1).2 rfl (by decide)⟩

/-! ## C7: the posted-URL invariant -/

/-- C7 fails as stated: from a store satisfying the invariant,
`mark_as_posted` called with an empty URL (which `watcher.py` does pass,
via `result.mastodon_url or ""`) produces a stored document with status
`"posted"` and an empty published URL.  The store enforces nothing. -/
theorem mark_as_posted_empty_url_cex :
    storeOk cexDb ∧
    markAsPosted cexDb "p1" "" none 0 = .ok cexDbEmptyUrl ∧
    ¬ storeOk cexDbEmptyUrl := by
  decide

/-- C7 amended: the mutating operations preserve the posted-URL invariant
provided their arguments respect it — `upsert_post` is given a document
satisfying it and `mark_as_posted` a non-empty URL; `insert_chunk`,
`store_embedding` and `delete_chunks_for_post` preserve it
unconditionally. -/
theorem store_ops_preserve_posted_url (db : DBState) (hok : storeOk db) :
    (∀ p db', postedOk p → upsertPost db p = .ok db' → storeOk db') ∧
    (∀ pid url postedAt now db', url ≠ "" →
      markAsPosted db pid url postedAt now = .ok db' → storeOk db') ∧
    (∀ postId chunkIndex content res,
      insertChunk db postId chunkIndex content = .ok res → storeOk res.2) ∧
    (∀ chunkId v db', storeEmbedding db chunkId v = .ok db' → storeOk db') ∧
    (∀ pid db', deleteChunksForPost db pid = .ok db' → storeOk db') := by
  refine ⟨?_, ?_, ?_, ?_, ?_⟩
  · intro p db' hp h
    unfold upsertPost at h
    split at h
    · cases h
    · cases h
      intro q hq
      simp only [DBState.mk.injEq] at hq ⊢
      split at hq
      · obtain ⟨q0, hq0, rfl⟩ := List.mem_map.mp hq
        split
        · intro hstat
          exact hp hstat
        · exact hok q0 hq0
      · rcases List.mem_append.mp hq with h1 | h1
        · exact hok q h1
        · rw [List.mem_singleton.mp h1]
          exact hp
  · intro pid url postedAt now db' hurl h
    unfold markAsPosted at h
    split at h
    · cases h
    · cases h
      intro q hq
      obtain ⟨q0, _, rfl⟩ := List.mem_map.mp hq
      split
      · intro _
        simpa using hurl
      · exact hok q0 (by assumption)
  · intro postId chunkIndex content res h
    unfold insertChunk at h
    split at h
    · cases h
    · cases h
      exact hok
  · intro chunkId v db' h
    unfold storeEmbedding at h
    split at h
    · cases h
    · split at h <;> · cases h; exact hok
  · intro pid db' h
    unfold deleteChunksForPost at h
    split at h
    · cases h
    · cases h
      exact hok

/-- Witness for the amended C7: marking the draft in `cexDb` as posted
with the non-empty URL `"u"` keeps the invariant. -/
theorem store_ops_preserve_posted_url_witness : storeOk cexDbPosted :=
  (store_ops_preserve_posted_url cexDb (by decide)).2.1 "p1" "u" none 5
    cexDbPosted (by decide) (by decide)

/-! ## C8: `mark_as_posted` functional behaviour -/

/-- C8.  On a connected store containing the document, `mark_as_posted`
sets status `"posted"`, the URL, the posted-timestamp (defaulting to the
current time) and the update-timestamp; `is_posted` then answers true; a
repeated call with the same arguments is idempotent and no call
duplicates the document row. -/
theorem mark_as_posted_correct (db : DBState) (pid url : String)
    (postedAt : Option Nat) (now : Nat)
    (hc : db.connected = true) (hmem : ∃ p ∈ db.posts, p.id = pid) :
    ∃ db', markAsPosted db pid url postedAt now = .ok db' ∧
      (∀ p' ∈ db'.posts, p'.id = pid →
        p'.status = "posted" ∧ p'.mastodon_url = some url ∧
        p'.posted_at = some (postedAt.getD now) ∧ p'.updated_at = now) ∧
      isPosted db' pid = .ok true ∧
      markAsPosted db' pid url postedAt now = .ok db' ∧
      db'.posts.length = db.posts.length := by
  set f : Post → Post := fun q =>
    if q.id == pid then
      { q with status := "posted", mastodon_url := some url,
               posted_at := some (postedAt.getD now), updated_at := now }
    else q with hf
  have hstep : ∀ db2 : DBState, db2.connected = true →
      markAsPosted db2 pid url postedAt now =
        .ok { db2 with posts := db2.posts.map f } := by
    intro db2 h2
    unfold markAsPosted
    rw [hf]
    simp [h2]
  have hfields : ∀ p' ∈ db.posts.map f, p'.id = pid →
      p'.status = "posted" ∧ p'.mastodon_url = some url ∧
      p'.posted_at = some (postedAt.getD now) ∧ p'.updated_at = now := by
    intro p' hp' hid
    obtain ⟨q0, _, rfl⟩ := List.mem_map.mp hp'
    rw [hf] at hid ⊢
    simp only at hid ⊢
    by_cases h : (q0.id == pid) = true
    · simp [h]
    · exfalso
      rw [if_neg h] at hid
      have hne : q0.id ≠ pid := by simpa using h
      exact hne hid
  refine ⟨{ db with posts := db.posts.map f }, hstep db hc, hfields, ?_, ?_, by simp⟩
  · obtain ⟨p0, hp0, hp0id⟩ := hmem
    have hfp : f p0 ∈ db.posts.map f := List.mem_map_of_mem f hp0
    have hpr : (p0.id == pid) = true := by simpa using hp0id
    have hpred : (fun q => q.id == pid) (f p0) = true := by
      rw [hf]
      simp [hpr, hp0id]
    have hsome : ((db.posts.map f).find? (fun q => q.id == pid)).isSome := by
      rw [List.find?_isSome]
      exact ⟨f p0, hfp, hpred⟩
    obtain ⟨q', hq'⟩ := Option.isSome_iff_exists.mp hsome
    have hq'mem : q' ∈ db.posts.map f := List.mem_of_find?_eq_some hq'
    have hq'id : q'.id = pid := by simpa using List.find?_some hq'
    have := hfields q' hq'mem hq'id
    unfold isPosted
    simp [hc, hq', this.1]
  · have hff : ∀ q, f (f q) = f q := by
      intro q
      rw [hf]
      simp only
      by_cases h : (q.id == pid) = true
      · simp [h]
      · simp [h]
    rw [hstep { db with posts := db.posts.map f } hc]
    have : (db.posts.map f).map f = db.posts.map f := by
      rw [List.map_map]
      exact List.map_congr_left fun q _ => hff q
    simp [this]

/-- Witness for C8 on the concrete store `cexDb`. -/
theorem mark_as_posted_correct_witness :
    ∃ db', markAsPosted cexDb "p1" "u" none 5 = .ok db' ∧
      (∀ p' ∈ db'.posts, p'.id = "p1" →
        p'.status = "posted" ∧ p'.mastodon_url = some "u" ∧
        p'.posted_at = some ((none : Option Nat).getD 5) ∧ p'.updated_at = 5) ∧
      isPosted db' "p1" = .ok true ∧
      markAsPosted db' "p1" "u" none 5 = .ok db' ∧
      db'.posts.length = cexDb.posts.length :=
  mark_as_posted_correct cexDb "p1" "u" none 5 rfl (by decide)

/-! ## C5: overlap seeding -/

/-- C5.  When appending a paragraph would overflow the maximum and the
running chunk is non-empty, the chunk is closed out (stripped) and the
new running chunk is the overlap seed followed by a space and the
paragraph (just the paragraph when the seed is empty).  The seed is
exactly the specification's description — the final `overlap` characters
broken after the first space inside that window when one exists — and the
whole chunk when it is no longer than `overlap`. -/
theorem overlap_seed :
    (∀ (cfg : ChunkConfig) (cks : List (List Char)) (cur para : List Char),
      cur ≠ [] → para.length ≤ cfg.maxChunkSize →
      cfg.maxChunkSize < cur.length + para.length + 2 →
      mergeStep cfg (cks, cur) para =
        (cks ++ [pyStrip cur],
         if (getOverlap cfg cur).isEmpty then para
         else getOverlap cfg cur ++ ' ' :: para)) ∧
    (∀ (cfg : ChunkConfig) (t : List Char), 0 < cfg.overlap →
      getOverlap cfg t = specOverlap cfg.overlap t) ∧
    (∀ (cfg : ChunkConfig) (t : List Char), t.length ≤ cfg.overlap →
      getOverlap cfg t = t) := by
  refine ⟨?_, ?_, ?_⟩
  · intro cfg cks cur para hcur h1 h2
    unfold mergeStep
    simp only
    rw [if_neg (by omega), if_pos (by omega),
      if_neg (by simpa [List.isEmpty_iff] using hcur)]
  · intro cfg t hn
    unfold getOverlap specOverlap strFind
    by_cases h : t.length ≤ cfg.overlap
    · rw [if_pos h, if_pos h]
    · rw [if_neg h, if_neg h]
      simp only
      cases hfi : (t.drop (t.length - cfg.overlap)).findIdx? (fun c => c == ' ') with
      | none => simp [Nat.pos_iff_ne_zero.mp hn]
      | some j =>
        simp only
        rw [List.drop_drop]
        congr 1
        try omega
  · intro cfg t h
    unfold getOverlap
    rw [if_pos h]

/-- Witness for C5 at a concrete configuration and chunk. -/
theorem overlap_seed_witness :
    (mergeStep cfgW ([], "abcdefgh".data) "abcd".data =
      ([] ++ [pyStrip "abcdefgh".data],
       if (getOverlap cfgW "abcdefgh".data).isEmpty then "abcd".data
       else getOverlap cfgW "abcdefgh".data ++ ' ' :: "abcd".data)) ∧
    getOverlap defaultConfig "ab cd".data = specOverlap defaultConfig.overlap "ab cd".data ∧
    getOverlap defaultConfig "ab".data = "ab".data :=
  ⟨overlap_seed.1 cfgW [] "abcdefgh".data "abcd".data (by decide) (by decide) (by decide),
   overlap_seed.2.1 defaultConfig "ab cd".data (by decide),
   overlap_seed.2.2 defaultConfig "ab".data (by decide)⟩

/-! ## C1: fused scores and ranking of reciprocal-rank fusion -/

theorem rankOf_cons (r : SearchResult) (rest : List SearchResult) (k : Nat) :
    rankOf (r :: rest) k =
      if (r.chunk_id == k) then some 1 else (rankOf rest k).map (· + 1) := by
  unfold rankOf
  rw [List.findIdx?_cons]
  by_cases h : (r.chunk_id == k) = true
  · simp [h]
  · simp [h, Option.map_map]

theorem rankOf_eq_none (l : List SearchResult) (k : Nat)
    (h : k ∉ l.map (fun r => r.chunk_id)) : rankOf l k = none := by
  unfold rankOf
  have hfi : l.findIdx? (fun r => r.chunk_id == k) = none := by
    rw [List.findIdx?_eq_none_iff]
    intro x hx
    have hxk : x.chunk_id ≠ k := by
      intro hxk
      exact h (hxk ▸ List.mem_map_of_mem (fun r => r.chunk_id) hx)
    simpa using hxk
  simp [hfi]

theorem find_key_of_mem :
    ∀ (d : List (Nat × RRFEntry)), (d.map Prod.fst).Nodup →
      ∀ kv ∈ d, d.find? (fun x => x.1 == kv.1) = some kv
  | [], _, kv, h => absurd h (List.not_mem_nil kv)
  | a :: d, hnd, kv, hkv => by
    obtain ⟨ha, hd⟩ := List.nodup_cons.mp hnd
    rw [List.find?_cons]
    by_cases h : (a.1 == kv.1) = true
    · rcases List.mem_cons.mp hkv with rfl | hm
      · simp [h]
      · exfalso
        have : kv.1 ∈ d.map Prod.fst := List.mem_map_of_mem Prod.fst hm
        rw [show a.1 = kv.1 from by simpa using h] at ha
        exact ha this
    · rcases List.mem_cons.mp hkv with rfl | hm
      · simp at h
      · simp only [h, if_false]
        exact find_key_of_mem d hd kv hm

theorem find?_map_keyfun (g : Nat × RRFEntry → Nat × RRFEntry)
    (hg : ∀ x, (g x).1 = x.1) (k : Nat) :
    ∀ d : List (Nat × RRFEntry),
      (d.map g).find? (fun x => x.1 == k) = (d.find? (fun x => x.1 == k)).map g
  | [] => rfl
  | a :: d => by
    simp only [List.map_cons]
    rw [List.find?_cons, List.find?_cons]
    rw [show ((g a).1 == k) = (a.1 == k) from by rw [hg]]
    by_cases h : (a.1 == k) = true
    · simp [h]
    · simp only [h, if_false]
      exact find?_map_keyfun g hg k d

theorem bEntries_map_fst (w kq : ℚ) :
    ∀ (rs : List SearchResult) (rank : Nat),
      (bEntries w kq rank rs).map Prod.fst = rs.map (fun r => r.chunk_id)
  | [], _ => rfl
  | r :: rest, rank => by
    simp only [bEntries, List.map_cons]
    rw [bEntries_map_fst w kq rest (rank + 1)]

theorem bEntries_key_result (w kq : ℚ) :
    ∀ (rs : List SearchResult) (rank : Nat),
      ∀ kv ∈ bEntries w kq rank rs, kv.2.result.chunk_id = kv.1
  | [], _, kv, h => absurd h (List.not_mem_nil kv)
  | r :: rest, rank, kv, h => by
    rcases List.mem_cons.mp h with rfl | hm
    · rfl
    · exact bEntries_key_result w kq rest (rank + 1) kv hm

theorem bEntries_find_score (w kq : ℚ) :
    ∀ (rs : List SearchResult) (rank : Nat) (k : Nat),
      (rs.map (fun r => r.chunk_id)).Nodup →
      (match (bEntries w kq rank rs).find? (fun kv => kv.1 == k) with
       | some kv => kv.2.rrf_score
       | none => 0) =
      (match rankOf rs k with
       | some j => w * (1 / (kq + (rank : ℚ) + (j : ℚ) - 1))
       | none => 0)
  | [], rank, k, _ => by simp [bEntries, rankOf]
  | r :: rest, rank, k, hnd => by
    obtain ⟨hhd, htl⟩ := List.nodup_cons.mp hnd
    simp only [bEntries]
    rw [List.find?_cons, rankOf_cons]
    by_cases h : (r.chunk_id == k) = true
    · simp only [h, if_true]
      show (bm25Entry w kq rank r).rrf_score = _
      unfold bm25Entry
      simp only
      congr 1
      push_cast
      ring
    · simp only [h, if_false]
      rw [bEntries_find_score w kq rest (rank + 1) k htl]
      cases hro : rankOf rest k with
      | none => simp
      | some j =>
        simp only [Option.map_some']
        congr 1
        push_cast
        ring

theorem addLex_eq_bEntries (w kq : ℚ) :
    ∀ (rs : List SearchResult) (rank : Nat) (d : List (Nat × RRFEntry)),
      (rs.map (fun r => r.chunk_id)).Nodup →
      (∀ r ∈ rs, r.chunk_id ∉ d.map Prod.fst) →
      addLex w kq rank rs d = d ++ bEntries w kq rank rs
  | [], rank, d, _, _ => by simp [addLex, bEntries]
  | r :: rest, rank, d, hnd, hdisj => by
    obtain ⟨hhd, htl⟩ := List.nodup_cons.mp hnd
    simp only [addLex]
    have hany : (d.any (fun kv => kv.1 == r.chunk_id)) = false := by
      rw [List.any_eq_false]
      intro kv hkv
      simp only [beq_iff_eq]
      intro hk
      exact hdisj r (List.mem_cons_self r rest)
        (hk ▸ List.mem_map_of_mem Prod.fst hkv)
    unfold dictSet
    rw [hany]
    simp only [Bool.false_eq_true, if_false]
    rw [addLex_eq_bEntries w kq rest (rank + 1)
      (d ++ [(r.chunk_id, bm25Entry w kq rank r)]) htl ?_]
    · simp [bEntries]
    · intro r2 hr2
      rw [List.map_append, List.mem_append]
      rintro (hm | hm)
      · exact hdisj r2 (List.mem_cons_of_mem r hr2) hm
      · simp only [List.map_cons, List.map_nil, List.mem_singleton] at hm
        apply hhd
        show r.chunk_id ∈ List.map (fun r => r.chunk_id) rest
        rw [← hm]
        exact List.mem_map_of_mem (fun r => r.chunk_id) hr2

theorem semUpd_fst (w kq : ℚ) (rank : Nat) (r : SearchResult) :
    ∀ x, (semUpd w kq rank r x).1 = x.1 := by
  intro x
  unfold semUpd
  by_cases h : (x.1 == r.chunk_id) = true
  · rw [if_pos h]
  · rw [if_neg h]

theorem addSem_cons (w kq : ℚ) (rank : Nat) (r : SearchResult)
    (rest : List SearchResult) (d : List (Nat × RRFEntry)) :
    addSem w kq rank (r :: rest) d =
      if (d.any fun kv => kv.1 == r.chunk_id) then
        addSem w kq (rank + 1) rest (d.map (semUpd w kq rank r))
      else addSem w kq (rank + 1) rest (d ++ [(r.chunk_id, semEntry w kq rank r)]) := by
  by_cases h : (d.any fun kv => kv.1 == r.chunk_id) = true
  · rw [if_pos h]
    simp only [addSem, h, if_true]
  · rw [if_neg h]
    rw [Bool.not_eq_true] at h
    simp only [addSem, h, Bool.false_eq_true, if_false]

theorem addSem_spec (w kq : ℚ) :
    ∀ (rest : List SearchResult) (rank : Nat) (d : List (Nat × RRFEntry)),
      (rest.map (fun r => r.chunk_id)).Nodup →
      (d.map Prod.fst).Nodup →
      ((addSem w kq rank rest d).map Prod.fst =
        d.map Prod.fst ++ (rest.map (fun r => r.chunk_id)).filter
          (fun i => !(d.map Prod.fst).contains i)) ∧
      (∀ kv ∈ addSem w kq rank rest d,
        kv.2.rrf_score =
          (match d.find? (fun x => x.1 == kv.1) with
           | some x => x.2.rrf_score
           | none => 0) +
          (match rankOf rest kv.1 with
           | some j => w * (1 / (kq + (rank : ℚ) + (j : ℚ) - 1))
           | none => 0)) ∧
      ((∀ kv ∈ d, kv.2.result.chunk_id = kv.1) →
        ∀ kv ∈ addSem w kq rank rest d, kv.2.result.chunk_id = kv.1)
  | [], rank, d, _, hndd => by
    refine ⟨by simp [addSem], ?_, ?_⟩
    · intro kv hkv
      have hkv' : kv ∈ d := hkv
      rw [find_key_of_mem d hndd kv hkv']
      simp [rankOf]
    · intro hres kv hkv
      exact hres kv hkv
  | r :: rest, rank, d, hnd, hndd => by
    obtain ⟨hhd, htl⟩ := List.nodup_cons.mp hnd
    rw [addSem_cons]
    by_cases h : (d.any fun kv => kv.1 == r.chunk_id) = true
    · rw [if_pos h]
      have hgf := semUpd_fst w kq rank r
      have hkeys : (d.map (semUpd w kq rank r)).map Prod.fst = d.map Prod.fst := by
        rw [List.map_map]
        exact List.map_congr_left fun x _ => hgf x
      have hnd' : ((d.map (semUpd w kq rank r)).map Prod.fst).Nodup := by
        rw [hkeys]; exact hndd
      obtain ⟨ih1, ih2, ih3⟩ :=
        addSem_spec w kq rest (rank + 1) (d.map (semUpd w kq rank r)) htl hnd'
      have hrid : r.chunk_id ∈ d.map Prod.fst := by
        obtain ⟨x, hx, hxp⟩ := List.any_eq_true.mp h
        have hx1 : x.1 = r.chunk_id := by simpa using hxp
        exact hx1 ▸ List.mem_map_of_mem Prod.fst hx
      refine ⟨?_, ?_, ?_⟩
      · rw [ih1, hkeys, List.map_cons, List.filter_cons]
        rw [if_neg (by simp [hrid])]
      · intro kv hkv
        have hsc := ih2 kv hkv
        rw [find?_map_keyfun (semUpd w kq rank r) hgf kv.1 d] at hsc
        by_cases hk : (kv.1 == r.chunk_id) = true
        · have hkeq : kv.1 = r.chunk_id := by simpa using hk
          have hsome : (d.find? (fun x => x.1 == kv.1)).isSome := by
            rw [List.find?_isSome]
            obtain ⟨x, hx, hxp⟩ := List.any_eq_true.mp h
            exact ⟨x, hx, by rw [hkeq]; exact hxp⟩
          obtain ⟨x, hx⟩ := Option.isSome_iff_exists.mp hsome
          rw [hx] at hsc ⊢
          simp only [Option.map_some'] at hsc
          have hx1 : x.1 = kv.1 := by simpa using List.find?_some hx
          have hxr : (x.1 == r.chunk_id) = true := by rw [hx1, hkeq]; simp
          unfold semUpd at hsc
          rw [if_pos hxr] at hsc
          have hro : rankOf rest kv.1 = none := by
            apply rankOf_eq_none
            rw [hkeq]
            exact hhd
          rw [hro] at hsc
          rw [rankOf_cons, if_pos (by simp [hkeq])]
          rw [hsc]
          simp only [add_zero]
          congr 1
          push_cast
          ring
        · have hkne : kv.1 ≠ r.chunk_id := by simpa using hk
          rw [rankOf_cons, if_neg (by simpa using Ne.symm hkne)]
          cases hfd : d.find? (fun x => x.1 == kv.1) with
          | none =>
            rw [hfd] at hsc
            simp only [Option.map_none'] at hsc
            cases hro : rankOf rest kv.1 with
            | none =>
              rw [hro] at hsc
              rw [hsc]
              simp
            | some j =>
              rw [hro] at hsc
              rw [hsc]
              simp only [Option.map_some']
              congr 1
              push_cast
              ring
          | some x =>
            have hx1 : x.1 = kv.1 := by simpa using List.find?_some hfd
            rw [hfd] at hsc
            simp only [Option.map_some'] at hsc
            have hgx : semUpd w kq rank r x = x := by
              unfold semUpd
              rw [if_neg (by rw [hx1]; simpa using hkne)]
            rw [hgx] at hsc
            cases hro : rankOf rest kv.1 with
            | none =>
              rw [hro] at hsc
              rw [hsc]
              simp
            | some j =>
              rw [hro] at hsc
              rw [hsc]
              simp only [Option.map_some']
              congr 1
              push_cast
              ring
      · intro hres kv hkv
        refine ih3 ?_ kv hkv
        intro x hx
        obtain ⟨x0, hx0, rfl⟩ := List.mem_map.mp hx
        unfold semUpd
        by_cases hx0r : (x0.1 == r.chunk_id) = true
        · rw [if_pos hx0r]
          exact hres x0 hx0
        · rw [if_neg hx0r]
          exact hres x0 hx0
    · rw [if_neg h]
      rw [Bool.not_eq_true] at h
      have hall := List.any_eq_false.mp h
      have hnotin : r.chunk_id ∉ d.map Prod.fst := by
        intro hm
        obtain ⟨x, hx, hxeq⟩ := List.mem_map.mp hm
        exact hall x hx (by simp [hxeq])
      have hkeys' : (d ++ [(r.chunk_id, semEntry w kq rank r)]).map Prod.fst =
          d.map Prod.fst ++ [r.chunk_id] := by simp
      have hnd' : (((d ++ [(r.chunk_id, semEntry w kq rank r)])).map Prod.fst).Nodup := by
        rw [hkeys']
        refine List.Nodup.append hndd (List.nodup_singleton _) ?_
        intro a ha hb
        rw [List.mem_singleton] at hb
        exact hnotin (hb ▸ ha)
      obtain ⟨ih1, ih2, ih3⟩ :=
        addSem_spec w kq rest (rank + 1) (d ++ [(r.chunk_id, semEntry w kq rank r)]) htl hnd'
      have hfc : (rest.map (fun r => r.chunk_id)).filter
            (fun i => !(d.map Prod.fst ++ [r.chunk_id]).contains i) =
          (rest.map (fun r => r.chunk_id)).filter
            (fun i => !(d.map Prod.fst).contains i) := by
        refine List.filter_congr ?_
        intro i hi
        have hir : i ≠ r.chunk_id := by
          intro hir
          apply hhd
          show r.chunk_id ∈ List.map (fun r => r.chunk_id) rest
          rw [← hir]
          exact hi
        simp [hir]
      refine ⟨?_, ?_, ?_⟩
      · rw [ih1, hkeys', hfc, List.map_cons, List.filter_cons]
        rw [if_pos (by simp [hnotin])]
        simp
      · intro kv hkv
        have hsc := ih2 kv hkv
        by_cases hk : (kv.1 == r.chunk_id) = true
        · have hkeq : kv.1 = r.chunk_id := by simpa using hk
          have hfd : d.find? (fun x => x.1 == kv.1) = none := by
            rw [List.find?_eq_none]
            intro x hx
            rw [hkeq]
            exact hall x hx
          have hfd' : (d ++ [(r.chunk_id, semEntry w kq rank r)]).find?
              (fun x => x.1 == kv.1) = some (r.chunk_id, semEntry w kq rank r) := by
            rw [List.find?_append, hfd]
            simp [hkeq]
          rw [hfd'] at hsc
          rw [hfd]
          have hro : rankOf rest kv.1 = none := by
            apply rankOf_eq_none
            rw [hkeq]
            exact hhd
          rw [hro] at hsc
          rw [rankOf_cons, if_pos (by simp [hkeq])]
          rw [hsc]
          unfold semEntry
          simp only [add_zero, zero_add]
          congr 1
          push_cast
          ring
        · have hkne : kv.1 ≠ r.chunk_id := by simpa using hk
          have hfd2 : (d ++ [(r.chunk_id, semEntry w kq rank r)]).find?
              (fun x => x.1 == kv.1) = d.find? (fun x => x.1 == kv.1) := by
            rw [List.find?_append]
            cases hfd : d.find? (fun x => x.1 == kv.1) with
            | some x => simp
            | none => simp [Ne.symm hkne]
          rw [hfd2] at hsc
          rw [rankOf_cons, if_neg (by simpa using Ne.symm hkne)]
          cases hro : rankOf rest kv.1 with
          | none =>
            rw [hro] at hsc
            rw [hsc]
            simp
          | some j =>
            rw [hro] at hsc
            rw [hsc]
            simp only [Option.map_some']
            congr 1
            push_cast
            ring
      · intro hres kv hkv
        refine ih3 ?_ kv hkv
        intro x hx
        rcases List.mem_append.mp hx with hx | hx
        · exact hres x hx
        · rw [List.mem_singleton] at hx
          rw [hx]
          rfl

theorem rrfScores_spec (alpha kq : ℚ) (b s : List SearchResult)
    (hnb : (b.map (fun r => r.chunk_id)).Nodup)
    (hns : (s.map (fun r => r.chunk_id)).Nodup) :
    ((rrfScores alpha kq b s).map Prod.fst = candIds b s) ∧
    (∀ kv ∈ rrfScores alpha kq b s,
      kv.2.rrf_score = fusedScore alpha kq b s kv.1) ∧
    (∀ kv ∈ rrfScores alpha kq b s, kv.2.result.chunk_id = kv.1) := by
  have hb0 : addLex (1 - alpha) kq 1 b [] = bEntries (1 - alpha) kq 1 b := by
    have := addLex_eq_bEntries (1 - alpha) kq b 1 [] hnb (by simp)
    simpa using this
  have hrs : rrfScores alpha kq b s =
      addSem alpha kq 1 s (bEntries (1 - alpha) kq 1 b) := by
    unfold rrfScores
    rw [hb0]
  have hbk := bEntries_map_fst (1 - alpha) kq b 1
  have hndb : ((bEntries (1 - alpha) kq 1 b).map Prod.fst).Nodup := by
    rw [hbk]; exact hnb
  obtain ⟨as1, as2, as3⟩ :=
    addSem_spec alpha kq s 1 (bEntries (1 - alpha) kq 1 b) hns hndb
  refine ⟨?_, ?_, ?_⟩
  · rw [hrs, as1, hbk]
    rfl
  · intro kv hkv
    rw [hrs] at hkv
    have hthis := as2 kv hkv
    rw [bEntries_find_score (1 - alpha) kq b 1 kv.1 hnb] at hthis
    unfold fusedScore contrib
    cases h1 : rankOf b kv.1 <;> cases h2 : rankOf s kv.1 <;>
      · rw [h1, h2] at hthis
        rw [hthis]
        try simp
        try (push_cast; ring)
  · intro kv hkv
    rw [hrs] at hkv
    exact as3 (bEntries_key_result (1 - alpha) kq b 1) kv hkv

theorem candIds_nodup (b s : List SearchResult)
    (hnb : (b.map (fun r => r.chunk_id)).Nodup)
    (hns : (s.map (fun r => r.chunk_id)).Nodup) :
    (candIds b s).Nodup := by
  unfold candIds
  refine List.Nodup.append hnb (hns.filter _) ?_
  intro a ha hb2
  rw [List.mem_filter] at hb2
  have h2 := hb2.2
  simp only [Bool.not_eq_true'] at h2
  simp at h2
  obtain ⟨x, hx, hxa⟩ := List.mem_map.mp ha
  exact h2 x hx hxa

theorem search_eq_rrf (hs : HybridSearch) (q : String) (limit : Nat)
    (hb : bm25Of hs q limit ≠ []) (hsem : semOf hs q limit ≠ []) :
    hs.search q limit =
      rrf hs.alpha hs.rrf_k (bm25Of hs q limit) (semOf hs q limit) limit := by
  unfold HybridSearch.search
  rw [if_neg (by simpa [List.isEmpty_iff] using hsem),
    if_neg (by simpa [List.isEmpty_iff] using hb)]

/-- C1.  When both candidate lists are non-empty (and, as SQL guarantees,
duplicate-free in chunk ids), every returned result's score is the
specification's fused score — the sum over the chunk's appearances of
`weight / (k + rank)` with weight `1 − alpha` for the lexical list and
`alpha` for the vector list — and the returned list consists of the
first `limit` candidates in descending fused-score order: it is sorted,
has length `min limit #candidates`, draws only from the candidates, and
every omitted candidate's fused score is at most every returned score. -/
theorem search_rrf_correct (hs : HybridSearch) (q : String) (limit : Nat)
    (hb : bm25Of hs q limit ≠ []) (hsem : semOf hs q limit ≠ [])
    (hnb : ((bm25Of hs q limit).map (fun r => r.chunk_id)).Nodup)
    (hns : ((semOf hs q limit).map (fun r => r.chunk_id)).Nodup) :
    (∀ r ∈ hs.search q limit,
      r.score = fusedScore hs.alpha hs.rrf_k (bm25Of hs q limit)
        (semOf hs q limit) r.chunk_id) ∧
    List.Pairwise (fun a c => c.score ≤ a.score) (hs.search q limit) ∧
    (hs.search q limit).length =
      min limit (candIds (bm25Of hs q limit) (semOf hs q limit)).length ∧
    (∀ r ∈ hs.search q limit,
      r.chunk_id ∈ candIds (bm25Of hs q limit) (semOf hs q limit)) ∧
    (∀ i ∈ candIds (bm25Of hs q limit) (semOf hs q limit),
      i ∉ (hs.search q limit).map (fun r => r.chunk_id) →
      ∀ r ∈ hs.search q limit,
        fusedScore hs.alpha hs.rrf_k (bm25Of hs q limit)
          (semOf hs q limit) i ≤ r.score) := by
  obtain ⟨k1, k2, k3⟩ :=
    rrfScores_spec hs.alpha hs.rrf_k (bm25Of hs q limit) (semOf hs q limit) hnb hns
  have hse := search_eq_rrf hs q limit hb hsem
  set d := rrfScores hs.alpha hs.rrf_k (bm25Of hs q limit) (semOf hs q limit) with hd
  have hperm : (d.insertionSort scoreGE).Perm d := List.perm_insertionSort scoreGE d
  have hsort : List.Sorted scoreGE (d.insertionSort scoreGE) :=
    List.sorted_insertionSort scoreGE d
  have hres : hs.search q limit =
      ((d.insertionSort scoreGE).take limit).map rebuild := by
    rw [hse]; rfl
  refine ⟨?_, ?_, ?_, ?_, ?_⟩
  · intro r hr
    rw [hres] at hr
    obtain ⟨kv, hkvt, rfl⟩ := List.mem_map.mp hr
    have hkv : kv ∈ d := hperm.mem_iff.mp (List.mem_of_mem_take hkvt)
    have hid : (rebuild kv).chunk_id = kv.1 := k3 kv hkv
    rw [hid]
    exact k2 kv hkv
  · rw [hres]
    rw [List.pairwise_map]
    exact (hsort.sublist (List.take_sublist limit _))
  · rw [hres]
    rw [List.length_map, List.length_take, hperm.length_eq]
    congr 1
    rw [← k1, List.length_map]
  · intro r hr
    rw [hres] at hr
    obtain ⟨kv, hkvt, rfl⟩ := List.mem_map.mp hr
    have hkv : kv ∈ d := hperm.mem_iff.mp (List.mem_of_mem_take hkvt)
    have hid : (rebuild kv).chunk_id = kv.1 := k3 kv hkv
    rw [hid, ← k1]
    exact List.mem_map_of_mem Prod.fst hkv
  · intro i hi hnotin r hr
    rw [← k1] at hi
    obtain ⟨kv, hkv, hkvi⟩ := List.mem_map.mp hi
    have hkvt : kv ∈ d.insertionSort scoreGE := hperm.symm.mem_iff.mp hkv
    rw [← List.take_append_drop limit (d.insertionSort scoreGE)] at hkvt
    rcases List.mem_append.mp hkvt with hkvtake | hkvdrop
    · exfalso
      apply hnotin
      rw [hres]
      have : (rebuild kv).chunk_id = i := (k3 kv hkv).trans hkvi
      rw [← this]
      exact List.mem_map_of_mem (fun r => r.chunk_id)
        (List.mem_map_of_mem rebuild hkvtake)
    · rw [hres] at hr
      obtain ⟨kv', hkv't, rfl⟩ := List.mem_map.mp hr
      have hpa := hsort
      rw [← List.take_append_drop limit (d.insertionSort scoreGE)] at hpa
      obtain ⟨-, -, hcross⟩ := List.pairwise_append.mp hpa
      have hge : scoreGE kv' kv := hcross kv' hkv't kv hkvdrop
      have hkv'd : kv' ∈ d := hperm.mem_iff.mp (List.mem_of_mem_take hkv't)
      have h1 : fusedScore hs.alpha hs.rrf_k (bm25Of hs q limit)
          (semOf hs q limit) i = kv.2.rrf_score := by
        rw [← hkvi]
        exact (k2 kv hkv).symm
      have h2 : (rebuild kv').score = kv'.2.rrf_score := rfl
      rw [h1, h2]
      exact hge

/-- Witness for C1: the fused ranking facts at a concrete searcher with
two lexical and two semantic results (one shared chunk). -/
theorem search_rrf_correct_witness :
    (∀ r ∈ (hsBoth (1/2)).search "q" 1,
      r.score = fusedScore (hsBoth (1/2)).alpha (hsBoth (1/2)).rrf_k
        (bm25Of (hsBoth (1/2)) "q" 1) (semOf (hsBoth (1/2)) "q" 1) r.chunk_id) ∧
    List.Pairwise (fun a c => c.score ≤ a.score) ((hsBoth (1/2)).search "q" 1) ∧
    ((hsBoth (1/2)).search "q" 1).length =
      min 1 (candIds (bm25Of (hsBoth (1/2)) "q" 1) (semOf (hsBoth (1/2)) "q" 1)).length ∧
    (∀ r ∈ (hsBoth (1/2)).search "q" 1,
      r.chunk_id ∈ candIds (bm25Of (hsBoth (1/2)) "q" 1) (semOf (hsBoth (1/2)) "q" 1)) ∧
    (∀ i ∈ candIds (bm25Of (hsBoth (1/2)) "q" 1) (semOf (hsBoth (1/2)) "q" 1),
      i ∉ ((hsBoth (1/2)).search "q" 1).map (fun r => r.chunk_id) →
      ∀ r ∈ (hsBoth (1/2)).search "q" 1,
        fusedScore (hsBoth (1/2)).alpha (hsBoth (1/2)).rrf_k
          (bm25Of (hsBoth (1/2)) "q" 1) (semOf (hsBoth (1/2)) "q" 1) i ≤ r.score) :=
  search_rrf_correct (hsBoth (1/2)) "q" 1 (by decide) (by decide) (by decide) (by decide)

/-! ## C6: fusion at the extreme weights -/

theorem contrib_zero (kq : ℚ) (l : List SearchResult) (i : Nat) :
    contrib 0 kq l i = 0 := by
  unfold contrib
  cases rankOf l i with
  | none => rfl
  | some j => simp

theorem fusedScore_zero (kq : ℚ) (b s : List SearchResult) (i : Nat) :
    fusedScore 0 kq b s i =
      (match rankOf b i with
       | some j => 1 / (kq + (j : ℚ))
       | none => 0) := by
  unfold fusedScore
  rw [contrib_zero, add_zero]
  unfold contrib
  norm_num

theorem fusedScore_one (kq : ℚ) (b s : List SearchResult) (i : Nat) :
    fusedScore 1 kq b s i =
      (match rankOf s i with
       | some j => 1 / (kq + (j : ℚ))
       | none => 0) := by
  unfold fusedScore
  rw [show (1 : ℚ) - 1 = 0 from by ring, contrib_zero, zero_add]
  unfold contrib
  rfl

theorem rankOf_isSome (l : List SearchResult) (i : Nat)
    (h : i ∈ l.map (fun r => r.chunk_id)) :
    ∃ j, rankOf l i = some j ∧ 1 ≤ j := by
  induction l with
  | nil => simp at h
  | cons r rest ih =>
    rw [rankOf_cons]
    by_cases hr : (r.chunk_id == i) = true
    · exact ⟨1, by rw [if_pos hr], le_refl 1⟩
    · have hi : i ∈ rest.map (fun r => r.chunk_id) := by
        rcases List.mem_cons.mp h with h1 | h1
        · exfalso
          exact hr (by simp [h1])
        · exact h1
      obtain ⟨j, hj, h1j⟩ := ih hi
      exact ⟨j + 1, by rw [if_neg hr, hj]; rfl, by omega⟩

theorem rankOf_get :
    ∀ (l : List SearchResult), (l.map (fun r => r.chunk_id)).Nodup →
      ∀ (i : Fin l.length), rankOf l ((l.get i).chunk_id) = some (i.1 + 1)
  | [], _, i => absurd i.2 (by simp)
  | r :: rest, hnd, i => by
    obtain ⟨hhd, htl⟩ := List.nodup_cons.mp hnd
    rcases i with ⟨iv, hiv⟩
    cases iv with
    | zero =>
      rw [rankOf_cons]
      simp
    | succ n =>
      have hn : n < rest.length := by simpa using hiv
      have hget : (r :: rest).get ⟨n + 1, hiv⟩ = rest.get ⟨n, hn⟩ := rfl
      rw [hget, rankOf_cons]
      have hmem : (rest.get ⟨n, hn⟩).chunk_id ∈ rest.map (fun r => r.chunk_id) :=
        List.mem_map_of_mem _ (rest.get_mem n hn)
      have hne : (r.chunk_id == (rest.get ⟨n, hn⟩).chunk_id) = false := by
        rw [beq_eq_false_iff_ne]
        intro he
        apply hhd
        show r.chunk_id ∈ List.map (fun r => r.chunk_id) rest
        rw [he]
        exact hmem
      rw [if_neg (by rw [hne]; simp), rankOf_get rest htl ⟨n, hn⟩]
      rfl

theorem pick_map_fst :
    ∀ (ids : List Nat) (d : List (Nat × RRFEntry)),
      (∀ i ∈ ids, i ∈ d.map Prod.fst) →
      (ids.filterMap (fun i => d.find? (fun kv => kv.1 == i))).map Prod.fst = ids
  | [], _, _ => rfl
  | i :: rest, d, hsub => by
    have hsome : (d.find? (fun kv => kv.1 == i)).isSome := by
      rw [List.find?_isSome]
      obtain ⟨kv, hkv, hkvi⟩ := List.mem_map.mp (hsub i (List.mem_cons_self i rest))
      exact ⟨kv, hkv, by simp [hkvi]⟩
    obtain ⟨x, hx⟩ := Option.isSome_iff_exists.mp hsome
    rw [List.filterMap_cons, hx]
    simp only [List.map_cons]
    rw [pick_map_fst rest d (fun j hj => hsub j (List.mem_cons_of_mem i hj))]
    have : x.1 = i := by simpa using List.find?_some hx
    rw [this]

theorem pick_mem (ids : List Nat) (d : List (Nat × RRFEntry)) :
    ∀ kv ∈ ids.filterMap (fun i => d.find? (fun kv => kv.1 == i)),
      kv ∈ d ∧ kv.1 ∈ ids := by
  intro kv hkv
  obtain ⟨i, hi, hfind⟩ := List.mem_filterMap.mp hkv
  refine ⟨List.mem_of_find?_eq_some hfind, ?_⟩
  have : kv.1 = i := by simpa using List.find?_some hfind
  exact this ▸ hi

theorem pick_perm (ids : List Nat) (d : List (Nat × RRFEntry))
    (hknodup : (d.map Prod.fst).Nodup) (hids : ids.Nodup)
    (hsub : ∀ i ∈ ids, i ∈ d.map Prod.fst) :
    d.Perm (ids.filterMap (fun i => d.find? (fun kv => kv.1 == i)) ++
      d.filter (fun kv => !ids.contains kv.1)) := by
  have hdn : d.Nodup := hknodup.of_map Prod.fst
  have hpn : (ids.filterMap (fun i => d.find? (fun kv => kv.1 == i))).Nodup := by
    refine List.Nodup.of_map Prod.fst ?_
    rw [pick_map_fst ids d hsub]
    exact hids
  have hp : (ids.filterMap (fun i => d.find? (fun kv => kv.1 == i))).Perm
      (d.filter (fun kv => ids.contains kv.1)) := by
    rw [List.perm_ext_iff_of_nodup hpn (hdn.filter _)]
    intro kv
    rw [List.mem_filter]
    constructor
    · intro hkv
      obtain ⟨h1, h2⟩ := pick_mem ids d kv hkv
      exact ⟨h1, by simpa using h2⟩
    · rintro ⟨h1, h2⟩
      rw [List.mem_filterMap]
      refine ⟨kv.1, by simpa using h2, ?_⟩
      exact find_key_of_mem d hknodup kv h1
  exact ((List.filter_append_perm _ d).symm).trans (hp.symm.append_right _)

theorem sorted_perm_take :
    ∀ (E Z t : List (Nat × RRFEntry)),
      t.Perm (E ++ Z) → List.Sorted scoreGE t →
      E.Pairwise (fun a b => b.2.rrf_score < a.2.rrf_score) →
      (∀ e ∈ E, ∀ z ∈ Z, z.2.rrf_score < e.2.rrf_score) →
      ∃ w, t = E ++ w
  | [], Z, t, _, _, _, _ => ⟨t, rfl⟩
  | e :: E', Z, t, hperm, hsort, hpw, hcross => by
    cases t with
    | nil =>
      exfalso
      have := hperm.length_eq
      simp at this
    | cons x xs =>
      obtain ⟨hpwh, hpwt⟩ := List.pairwise_cons.mp hpw
      have hx : x = e := by
        have hemem : e ∈ x :: xs :=
          hperm.symm.mem_iff.mp (List.mem_cons_self e (E' ++ Z))
        rcases List.mem_cons.mp hemem with he | he
        · exact he.symm
        · have hle : scoreGE x e := List.rel_of_sorted_cons hsort e he
          have hxmem : x ∈ e :: (E' ++ Z) :=
            hperm.mem_iff.mp (List.mem_cons_self x xs)
          rcases List.mem_cons.mp hxmem with h1 | h1
          · exact h1
          · exfalso
            rcases List.mem_append.mp h1 with h2 | h2
            · exact absurd (lt_of_lt_of_le (hpwh x h2) hle) (lt_irrefl _)
            · exact absurd (lt_of_lt_of_le
                (hcross e (List.mem_cons_self e E') x h2) hle) (lt_irrefl _)
      subst hx
      obtain ⟨w, hw⟩ := sorted_perm_take E' Z xs (hperm.cons_inv) hsort.of_cons hpwt
        (fun a ha z hz => hcross a (List.mem_cons_of_mem x ha) z hz)
      exact ⟨w, by rw [List.cons_append, hw]⟩

theorem pairwise_of_key_fun (f : Nat → ℚ) :
    ∀ (E : List (Nat × RRFEntry)) (ids : List Nat),
      E.map Prod.fst = ids →
      (∀ kv ∈ E, kv.2.rrf_score = f kv.1) →
      ids.Pairwise (fun a b => f b < f a) →
      E.Pairwise (fun a b => b.2.rrf_score < a.2.rrf_score)
  | [], _, _, _, _ => List.Pairwise.nil
  | kv :: E', ids, hfst, hsc, hpw => by
    rw [List.map_cons] at hfst
    subst hfst
    obtain ⟨hpwh, hpwt⟩ := List.pairwise_cons.mp hpw
    refine List.Pairwise.cons ?_ ?_
    · intro b hb
      rw [hsc b (List.mem_cons_of_mem kv hb), hsc kv (List.mem_cons_self kv E')]
      exact hpwh b.1 (List.mem_map_of_mem Prod.fst hb)
    · exact pairwise_of_key_fun f E' (E'.map Prod.fst) rfl
        (fun x hx => hsc x (List.mem_cons_of_mem kv hx)) hpwt

theorem lead_pairwise (kq : ℚ) (hkq : 0 ≤ kq) (L : List SearchResult)
    (hnL : (L.map (fun r => r.chunk_id)).Nodup) :
    (L.map (fun r => r.chunk_id)).Pairwise (fun a b =>
      (match rankOf L b with
       | some j => 1 / (kq + (j : ℚ))
       | none => 0) <
      (match rankOf L a with
       | some j => 1 / (kq + (j : ℚ))
       | none => 0)) := by
  rw [List.pairwise_map, List.pairwise_iff_get]
  intro i j hij
  rw [rankOf_get L hnL i, rankOf_get L hnL j]
  simp only
  have hi : (0 : ℚ) < kq + (↑i.1 + 1) := by positivity
  have hij2 : (i.1 : ℚ) < (j.1 : ℚ) := by exact_mod_cast hij
  have := one_div_lt_one_div_of_lt hi (by linarith : kq + (↑i.1 + 1) < kq + (↑j.1 + 1))
  push_cast
  convert this using 2 <;> push_cast <;> ring

/-- The generic extreme-weight fact: if every fused entry's score is
`1/(k + rank-in-L)` for a lead list `L` (zero off `L`), the first `limit`
fused results carry exactly the first `limit` chunk ids of `L`. -/
theorem rrf_take_lead (kq : ℚ) (hkq : 0 ≤ kq) (d : List (Nat × RRFEntry))
    (L : List SearchResult)
    (hnL : (L.map (fun r => r.chunk_id)).Nodup)
    (hscore : ∀ kv ∈ d, kv.2.rrf_score =
      (match rankOf L kv.1 with
       | some j => 1 / (kq + (j : ℚ))
       | none => 0))
    (hknodup : (d.map Prod.fst).Nodup)
    (hsub : ∀ i ∈ L.map (fun r => r.chunk_id), i ∈ d.map Prod.fst)
    (hresinv : ∀ kv ∈ d, kv.2.result.chunk_id = kv.1)
    (limit : Nat) (hlim : limit ≤ L.length) :
    (((d.insertionSort scoreGE).take limit).map rebuild).map (fun r => r.chunk_id) =
      (L.take limit).map (fun r => r.chunk_id) := by
  set ids := L.map (fun r => r.chunk_id) with hids
  set E := ids.filterMap (fun i => d.find? (fun kv => kv.1 == i)) with hE
  set Z := d.filter (fun kv => !ids.contains kv.1) with hZ
  have hEfst : E.map Prod.fst = ids := pick_map_fst ids d hsub
  have hElen : E.length = L.length := by
    have := congrArg List.length hEfst
    simpa [hids] using this
  have hperm : (d.insertionSort scoreGE).Perm (E ++ Z) :=
    (List.perm_insertionSort scoreGE d).trans
      (pick_perm ids d hknodup (by rw [hids]; exact hnL) hsub)
  have hsort : List.Sorted scoreGE (d.insertionSort scoreGE) :=
    List.sorted_insertionSort scoreGE d
  have hEmem : ∀ kv ∈ E, kv ∈ d ∧ kv.1 ∈ ids := pick_mem ids d
  have hpwE : E.Pairwise (fun a b => b.2.rrf_score < a.2.rrf_score) := by
    refine pairwise_of_key_fun _ E ids hEfst ?_ (lead_pairwise kq hkq L hnL)
    intro kv hkv
    exact hscore kv (hEmem kv hkv).1
  have hcross : ∀ e ∈ E, ∀ z ∈ Z, z.2.rrf_score < e.2.rrf_score := by
    intro e he z hz
    rw [List.mem_filter] at hz
    have hzid : z.1 ∉ ids := by
      have := hz.2
      simp only [Bool.not_eq_true'] at this
      simpa using this
    have hzsc : z.2.rrf_score = 0 := by
      rw [hscore z hz.1, rankOf_eq_none L z.1 (by rw [← hids]; exact hzid)]
    obtain ⟨j, hj, h1j⟩ := rankOf_isSome L e.1 (by rw [← hids]; exact (hEmem e he).2)
    have hesc : e.2.rrf_score = 1 / (kq + (j : ℚ)) := by
      rw [hscore e (hEmem e he).1, hj]
    rw [hzsc, hesc]
    have : (0 : ℚ) < kq + (j : ℚ) := by
      have : (1 : ℚ) ≤ (j : ℚ) := by exact_mod_cast h1j
      linarith
    positivity
  obtain ⟨w, hw⟩ := sorted_perm_take E Z (d.insertionSort scoreGE) hperm hsort hpwE hcross
  have h1 : (((d.insertionSort scoreGE).take limit).map rebuild).map (fun r => r.chunk_id) =
      ((d.insertionSort scoreGE).take limit).map Prod.fst := by
    rw [List.map_map]
    refine List.map_congr_left ?_
    intro kv hkv
    have hkvd : kv ∈ d := (List.perm_insertionSort scoreGE d).mem_iff.mp
      (List.mem_of_mem_take hkv)
    exact hresinv kv hkvd
  rw [h1, hw, List.map_take, List.map_append,
    List.take_append_of_le_length (by rw [List.length_map, hElen]; exact hlim),
    hEfst, List.map_take]

/-- C6.  With both candidate lists non-empty (and duplicate-free, as SQL
guarantees), fusion at `alpha = 0` ranks exactly like pure lexical search
and fusion at `alpha = 1` exactly like pure vector search, whenever the
respective list supplies at least `limit` candidates (beyond that point
the other list's zero-weight leftovers pad the output — the claim's "up
to fallback behavior"). -/
theorem alpha_extreme_ranking (ix : SearchIndex) (embed : String → List ℚ)
    (kq : ℚ) (q : String) (limit : Nat) (hkq : 0 ≤ kq)
    (hb : bm25Of ⟨ix, embed, 0, kq⟩ q limit ≠ [])
    (hsem : semOf ⟨ix, embed, 0, kq⟩ q limit ≠ [])
    (hnb : ((bm25Of ⟨ix, embed, 0, kq⟩ q limit).map (fun r => r.chunk_id)).Nodup)
    (hns : ((semOf ⟨ix, embed, 0, kq⟩ q limit).map (fun r => r.chunk_id)).Nodup) :
    (limit ≤ (bm25Of ⟨ix, embed, 0, kq⟩ q limit).length →
      ((HybridSearch.mk ix embed 0 kq).search q limit).map (fun r => r.chunk_id) =
        (ftsSearch ix q limit).map (fun r => r.chunk_id)) ∧
    (limit ≤ (semOf ⟨ix, embed, 0, kq⟩ q limit).length →
      ((HybridSearch.mk ix embed 1 kq).search q limit).map (fun r => r.chunk_id) =
        (vectorSearch ix (embed q) limit).map (fun r => r.chunk_id)) := by
  constructor
  · intro hlim
    obtain ⟨k1, k2, k3⟩ := rrfScores_spec 0 kq (bm25Of ⟨ix, embed, 0, kq⟩ q limit)
      (semOf ⟨ix, embed, 0, kq⟩ q limit) hnb hns
    rw [search_eq_rrf ⟨ix, embed, 0, kq⟩ q limit hb hsem]
    unfold rrf
    have hlead := rrf_take_lead kq hkq
      (rrfScores 0 kq (bm25Of ⟨ix, embed, 0, kq⟩ q limit)
        (semOf ⟨ix, embed, 0, kq⟩ q limit))
      (bm25Of ⟨ix, embed, 0, kq⟩ q limit) hnb
      (fun kv hkv => by rw [k2 kv hkv, fusedScore_zero])
      (by rw [k1]
          exact candIds_nodup _ _ hnb hns)
      (fun i hi => by
        rw [k1]
        unfold candIds
        exact List.mem_append_left _ hi)
      k3 limit hlim
    rw [hlead]
    have htake : (bm25Of ⟨ix, embed, 0, kq⟩ q limit).take limit =
        ftsSearch ix q limit := by
      show (ftsSearch ix q (limit * 3)).take limit = ftsSearch ix q limit
      unfold ftsSearch
      rw [List.take_take]
      congr 1
      omega
    rw [htake]
  · intro hlim
    obtain ⟨k1, k2, k3⟩ := rrfScores_spec 1 kq (bm25Of ⟨ix, embed, 1, kq⟩ q limit)
      (semOf ⟨ix, embed, 1, kq⟩ q limit) hnb hns
    rw [search_eq_rrf ⟨ix, embed, 1, kq⟩ q limit hb hsem]
    unfold rrf
    have hlead := rrf_take_lead kq hkq
      (rrfScores 1 kq (bm25Of ⟨ix, embed, 1, kq⟩ q limit)
        (semOf ⟨ix, embed, 1, kq⟩ q limit))
      (semOf ⟨ix, embed, 1, kq⟩ q limit) hns
      (fun kv hkv => by rw [k2 kv hkv, fusedScore_one])
      (by rw [k1]
          exact candIds_nodup _ _ hnb hns)
      (fun i hi => by
        rw [k1]
        unfold candIds
        by_cases hib : i ∈ (bm25Of ⟨ix, embed, 1, kq⟩ q limit).map (fun r => r.chunk_id)
        · exact List.mem_append_left _ hib
        · refine List.mem_append_right _ ?_
          rw [List.mem_filter]
          exact ⟨hi, by simpa using hib⟩)
      k3 limit hlim
    rw [hlead]
    have hen : ix.vecEnabled = true := by
      by_contra hc
      apply hsem
      show (if ix.vecEnabled then vectorSearch ix (embed q) (limit * 3) else []) = []
      simp only [Bool.not_eq_true] at hc
      simp [hc]
    have htake : (semOf ⟨ix, embed, 1, kq⟩ q limit).take limit =
        vectorSearch ix (embed q) limit := by
      show ((if ix.vecEnabled then vectorSearch ix (embed q) (limit * 3) else [])).take limit =
        vectorSearch ix (embed q) limit
      rw [hen]
      simp only [if_true]
      unfold vectorSearch
      rw [hen]
      simp only [if_true]
      rw [List.take_take]
      congr 1
      omega
    rw [htake]

/-- Witness for C6 on a concrete searcher with two lexical and two
semantic candidates and `limit = 1`. -/
theorem alpha_extreme_ranking_witness :
    (1 ≤ (bm25Of ⟨(hsBoth 0).ix, (hsBoth 0).embed, 0, 60⟩ "q" 1).length →
      ((HybridSearch.mk (hsBoth 0).ix (hsBoth 0).embed 0 60).search "q" 1).map
          (fun r => r.chunk_id) =
        (ftsSearch (hsBoth 0).ix "q" 1).map (fun r => r.chunk_id)) ∧
    (1 ≤ (semOf ⟨(hsBoth 0).ix, (hsBoth 0).embed, 0, 60⟩ "q" 1).length →
      ((HybridSearch.mk (hsBoth 0).ix (hsBoth 0).embed 1 60).search "q" 1).map
          (fun r => r.chunk_id) =
        (vectorSearch (hsBoth 0).ix ((hsBoth 0).embed "q") 1).map
          (fun r => r.chunk_id)) :=
  alpha_extreme_ranking (hsBoth 0).ix (hsBoth 0).embed 60 "q" 1 (by norm_num)
    (by decide) (by decide) (by decide) (by decide)

/-! ## C4: lossless paragraph coverage of chunking -/

theorem dewhite_nil : dewhite [] = [] := rfl

theorem dewhite_append (a b : List Char) :
    dewhite (a ++ b) = dewhite a ++ dewhite b := by
  unfold dewhite
  rw [List.filter_append]

theorem dewhite_dropWhile (l : List Char) :
    dewhite (l.dropWhile isPySpace) = dewhite l := by
  induction l with
  | nil => rfl
  | cons a l ih =>
    by_cases h : isPySpace a = true
    · rw [List.dropWhile_cons]
      simp only [h, if_true]
      rw [ih]
      unfold dewhite
      rw [List.filter_cons]
      simp [h]
    · rw [List.dropWhile_cons]
      simp [h]

theorem dewhite_reverse (l : List Char) :
    dewhite l.reverse = (dewhite l).reverse := by
  unfold dewhite
  rw [List.filter_reverse]

theorem dewhite_pyStrip (l : List Char) : dewhite (pyStrip l) = dewhite l := by
  unfold pyStrip
  rw [dewhite_reverse, dewhite_dropWhile, dewhite_reverse, List.reverse_reverse,
    dewhite_dropWhile]

theorem dewhite_space_cons (c : Char) (l : List Char) (h : isPySpace c = true) :
    dewhite (c :: l) = dewhite l := by
  unfold dewhite
  rw [List.filter_cons]
  simp [h]

theorem dewhite_cons (c : Char) (l : List Char) :
    dewhite (c :: l) = dewhite [c] ++ dewhite l := by
  show dewhite ([c] ++ l) = _
  rw [dewhite_append]

theorem dewhite_take_of_space (l : List Char) (k : Nat)
    (h : k ≤ (l.takeWhile isPySpace).length) : dewhite (l.take k) = [] := by
  have h1 : l.take k = (l.takeWhile isPySpace).take k := by
    conv_lhs => rw [← List.takeWhile_append_dropWhile isPySpace l]
    rw [List.take_append_of_le_length h]
  rw [h1]
  unfold dewhite
  rw [List.filter_eq_nil_iff]
  intro a ha
  have : isPySpace a = true :=
    List.mem_takeWhile_imp (List.mem_of_mem_take ha)
  simp [this]

theorem sepSkip_le (rest : List Char) (k : Nat) (h : sepSkip rest = some k) :
    k ≤ (rest.takeWhile isPySpace).length := by
  simp only [sepSkip] at h
  cases hfi : (rest.takeWhile isPySpace).reverse.findIdx? (fun c => c == '\n') with
  | none => rw [hfi] at h; cases h
  | some j =>
    rw [hfi] at h
    have : (rest.takeWhile isPySpace).length - j = k := by
      simpa using h
    omega

theorem splitParasAux_dewhite :
    ∀ (acc s : List Char),
      dewhite ((splitParasAux acc s).flatten) = dewhite acc.reverse ++ dewhite s := by
  intro acc s
  induction acc, s using splitParasAux.induct with
  | case1 acc =>
    simp [splitParasAux, dewhite]
  | case2 acc c rest hc k hsep ih =>
    have hceq : c = '\n' := by simpa using hc
    have hc' : isPySpace c = true := by rw [hceq]; rfl
    rw [splitParasAux]
    simp only [hc, if_true, hsep]
    rw [List.flatten_cons, dewhite_append, ih]
    rw [dewhite_space_cons c rest hc']
    conv_rhs => rw [← List.take_append_drop k rest]
    rw [dewhite_append, dewhite_take_of_space rest k (sepSkip_le rest k hsep)]
    simp [dewhite_nil]
  | case3 acc c rest hc hsep ih =>
    have hceq : c = '\n' := by simpa using hc
    have hc' : isPySpace c = true := by rw [hceq]; rfl
    rw [splitParasAux]
    simp only [hc, if_true, hsep]
    rw [ih, List.reverse_cons, dewhite_append]
    have hdc : dewhite [c] = [] := by
      rw [dewhite_space_cons c [] hc']
      rfl
    rw [hdc, dewhite_space_cons c rest hc']
    simp
  | case4 acc c rest hc ih =>
    rw [splitParasAux]
    rw [if_neg hc]
    rw [ih, List.reverse_cons, dewhite_append]
    rw [dewhite_cons c rest]
    simp

theorem splitSentsAux_dewhite :
    ∀ (prev : Option Char) (acc s : List Char),
      dewhite ((splitSentsAux prev acc s).flatten) =
        dewhite acc.reverse ++ dewhite s := by
  intro prev acc s
  induction prev, acc, s using splitSentsAux.induct with
  | case1 prev acc =>
    simp [splitSentsAux, dewhite_nil]
  | case2 prev acc c rest hc ih =>
    have hc' : isPySpace c = true := (Bool.and_eq_true _ _).mp hc |>.1
    rw [splitSentsAux]
    simp only [hc, if_true]
    rw [List.flatten_cons, dewhite_append, ih]
    rw [dewhite_space_cons c rest hc', dewhite_dropWhile]
    simp [dewhite_nil]
  | case3 prev acc c rest hc ih =>
    rw [splitSentsAux]
    rw [if_neg (by simp [hc])]
    rw [ih, List.reverse_cons, dewhite_append, dewhite_cons c rest]
    simp

theorem flatten_filter_nonempty (l : List (List Char)) :
    (l.filter (fun p => !p.isEmpty)).flatten = l.flatten := by
  induction l with
  | nil => rfl
  | cons a l ih =>
    rw [List.filter_cons]
    by_cases h : a.isEmpty = true
    · have ha : a = [] := List.isEmpty_iff.mp h
      simp [h, ih, ha]
    · simp [h, ih]

theorem dewhite_flatten_map_pyStrip (l : List (List Char)) :
    dewhite ((l.map pyStrip).flatten) = dewhite l.flatten := by
  induction l with
  | nil => rfl
  | cons a l ih =>
    rw [List.map_cons, List.flatten_cons, List.flatten_cons, dewhite_append,
      dewhite_append, ih, dewhite_pyStrip]

theorem splitParagraphs_dewhite (t : List Char) :
    dewhite ((splitParagraphs t).flatten) = dewhite t := by
  unfold splitParagraphs
  rw [flatten_filter_nonempty, dewhite_flatten_map_pyStrip]
  have := splitParasAux_dewhite [] t
  simpa [dewhite_nil] using this

theorem splitSentences_dewhite (t : List Char) :
    dewhite ((splitSentences t).flatten) = dewhite t := by
  unfold splitSentences
  rw [flatten_filter_nonempty, dewhite_flatten_map_pyStrip]
  have := splitSentsAux_dewhite none [] t
  simpa [dewhite_nil] using this

theorem pack_dewhite (cfg : ChunkConfig) :
    ∀ (ss : List (List Char)) (st : List (List Char) × List Char),
      dewhite ((packSentences cfg ss st).1.flatten ++ (packSentences cfg ss st).2) =
        dewhite (st.1.flatten ++ st.2) ++ dewhite ss.flatten
  | [], st => by simp [packSentences, dewhite_nil]
  | sen :: rest, st => by
    rw [packSentences]
    by_cases hfit : st.2.length + sen.length ≤ cfg.maxChunkSize
    · rw [if_pos hfit, pack_dewhite cfg rest]
      rw [List.flatten_cons]
      by_cases hsc : st.2.isEmpty = true
      · have h2 : st.2 = [] := List.isEmpty_iff.mp hsc
        simp only [hsc, if_true, h2]
        simp [dewhite_append, dewhite_nil, List.append_assoc]
      · simp only [Bool.not_eq_true] at hsc
        simp only [hsc, Bool.false_eq_true, if_false]
        simp [dewhite_append, dewhite_space_cons ' ' sen rfl, List.append_assoc]
    · rw [if_neg hfit, pack_dewhite cfg rest]
      rw [List.flatten_cons]
      by_cases hsc : st.2.isEmpty = true
      · have h2 : st.2 = [] := List.isEmpty_iff.mp hsc
        simp only [hsc, if_true, h2]
        simp [dewhite_append, dewhite_nil, List.append_assoc]
      · simp only [Bool.not_eq_true] at hsc
        simp only [hsc, Bool.false_eq_true, if_false]
        simp [dewhite_append, dewhite_pyStrip, dewhite_nil, List.append_assoc,
          List.flatten_append]

theorem coversInOrder_snoc :
    ∀ {ps : List (List Char)} {s : List Char}, CoversInOrder ps s →
      ∀ (t p : List Char), CoversInOrder (ps ++ [p]) (s ++ t ++ p) := by
  intro ps s h
  induction h with
  | nil s =>
    intro t p
    have := CoversInOrder.cons p [] (s ++ t) [] (CoversInOrder.nil [])
    simpa using this
  | cons p0 ps pre rest h ih =>
    intro t p
    have := CoversInOrder.cons p0 (ps ++ [p]) pre (rest ++ t ++ p) (ih t p)
    have heq : pre ++ p0 ++ (rest ++ t ++ p) = (pre ++ p0 ++ rest) ++ t ++ p := by
      simp [List.append_assoc]
    rw [heq] at this
    exact this

theorem coversInOrder_flatten :
    ∀ (ps : List (List Char)), CoversInOrder ps ps.flatten
  | [] => CoversInOrder.nil []
  | p :: ps => by
    have := CoversInOrder.cons p ps [] ps.flatten (coversInOrder_flatten ps)
    simpa using this

theorem mergeStep_dewhite_chain (cfg : ChunkConfig) (ps0 : List (List Char))
    (st : List (List Char) × List Char) (p : List Char)
    (h : CoversInOrder ps0 (dewhite (st.1.flatten ++ st.2))) :
    CoversInOrder (ps0 ++ [dewhite p])
      (dewhite ((mergeStep cfg st p).1.flatten ++ (mergeStep cfg st p).2)) := by
  unfold mergeStep
  by_cases hbig : cfg.maxChunkSize < p.length
  · rw [if_pos hbig]
    have hpack := pack_dewhite cfg (splitSentences p)
      ((if st.2.isEmpty then st.1 else st.1 ++ [pyStrip st.2]), [])
    simp only at hpack
    rw [hpack, splitSentences_dewhite]
    have hck : dewhite ((if st.2.isEmpty then st.1 else st.1 ++ [pyStrip st.2]).flatten ++ []) =
        dewhite (st.1.flatten ++ st.2) := by
      by_cases hsc : st.2.isEmpty = true
      · have h2 : st.2 = [] := List.isEmpty_iff.mp hsc
        simp [hsc, h2]
      · simp only [Bool.not_eq_true] at hsc
        simp only [hsc, Bool.false_eq_true, if_false]
        rw [List.append_nil, List.flatten_append]
        simp [dewhite_append, dewhite_pyStrip]
    rw [hck]
    have := coversInOrder_snoc h [] (dewhite p)
    simpa using this
  · rw [if_neg hbig]
    by_cases hover : cfg.maxChunkSize < st.2.length + p.length + 2
    · rw [if_pos hover]
      by_cases hsc : st.2.isEmpty = true
      · have h2 : st.2 = [] := List.isEmpty_iff.mp hsc
        simp only [hsc, if_true]
        have := coversInOrder_snoc h [] (dewhite p)
        simp only [List.append_nil] at this
        rw [dewhite_append]
        rw [dewhite_append] at this
        simpa [h2, dewhite_nil] using this
      · simp only [Bool.not_eq_true] at hsc
        simp only [hsc, Bool.false_eq_true, if_false]
        by_cases hov : (getOverlap cfg st.2).isEmpty = true
        · have hov2 : getOverlap cfg st.2 = [] := List.isEmpty_iff.mp hov
          simp only [hov, if_true]
          have := coversInOrder_snoc h [] (dewhite p)
          rw [List.flatten_append]
          simp only [List.append_nil] at this
          simpa [dewhite_append, dewhite_pyStrip, List.append_assoc] using this
        · simp only [Bool.not_eq_true] at hov
          simp only [hov, Bool.false_eq_true, if_false]
          have := coversInOrder_snoc h (dewhite (getOverlap cfg st.2)) (dewhite p)
          rw [List.flatten_append]
          have hsp : dewhite (getOverlap cfg st.2 ++ ' ' :: p) =
              dewhite (getOverlap cfg st.2) ++ dewhite p := by
            rw [dewhite_append, dewhite_space_cons ' ' p rfl]
          simpa [dewhite_append, dewhite_pyStrip, hsp, List.append_assoc] using this
    · rw [if_neg hover]
      by_cases hsc : st.2.isEmpty = true
      · have h2 : st.2 = [] := List.isEmpty_iff.mp hsc
        simp only [hsc, if_true]
        have := coversInOrder_snoc h [] (dewhite p)
        simp only [List.append_nil] at this
        rw [dewhite_append]
        rw [dewhite_append] at this
        simpa [h2, dewhite_nil] using this
      · simp only [Bool.not_eq_true] at hsc
        simp only [hsc, Bool.false_eq_true, if_false]
        have := coversInOrder_snoc h [] (dewhite p)
        simp only [List.append_nil] at this
        have hnl : dewhite (st.2 ++ '\n' :: '\n' :: p) = dewhite st.2 ++ dewhite p := by
          rw [dewhite_append, dewhite_space_cons '\n' _ rfl, dewhite_space_cons '\n' p rfl]
        simpa [dewhite_append, hnl, List.append_assoc] using this

theorem mergeFold_dewhite_chain (cfg : ChunkConfig) :
    ∀ (paras : List (List Char)) (st : List (List Char) × List Char)
      (ps0 : List (List Char)),
      CoversInOrder ps0 (dewhite (st.1.flatten ++ st.2)) →
      CoversInOrder (ps0 ++ paras.map dewhite)
        (dewhite ((paras.foldl (mergeStep cfg) st).1.flatten ++
          (paras.foldl (mergeStep cfg) st).2))
  | [], st, ps0, h => by simpa using h
  | p :: rest, st, ps0, h => by
    rw [List.foldl_cons]
    have hstep := mergeStep_dewhite_chain cfg ps0 st p h
    have := mergeFold_dewhite_chain cfg rest (mergeStep cfg st p) (ps0 ++ [dewhite p]) hstep
    simpa [List.append_assoc] using this

theorem dewhite_flatten (l : List (List Char)) :
    dewhite l.flatten = (l.map dewhite).flatten := by
  induction l with
  | nil => rfl
  | cons a l ih =>
    rw [List.flatten_cons, List.map_cons, List.flatten_cons, dewhite_append, ih]

/-- C4.  Chunking loses no paragraph content except a sub-minimum trailing
remainder: the non-whitespace content of every paragraph of the (stripped)
input occurs, in input order, as disjoint contiguous segments inside the
non-whitespace content of the emitted chunks followed by at most one
dropped tail whose stripped length is below `minChunkSize`; and the final
running chunk is emitted exactly when it is non-empty and meets the
minimum. -/
theorem chunk_lossless (cfg : ChunkConfig) (text : List Char) :
    (∃ tail : List Char,
       CoversInOrder ((splitParagraphs (pyStrip text)).map dewhite)
         (dewhite ((chunk cfg text).flatten ++ tail)) ∧
       (tail ≠ [] → (pyStrip tail).length < cfg.minChunkSize)) ∧
    (∀ paras : List (List Char),
       ((pyStrip (mergeFold cfg paras).2).length < cfg.minChunkSize →
         mergeAndSplit cfg paras = (mergeFold cfg paras).1) ∧
       ((mergeFold cfg paras).2 ≠ [] →
         cfg.minChunkSize ≤ (pyStrip (mergeFold cfg paras).2).length →
         mergeAndSplit cfg paras = (mergeFold cfg paras).1 ++
           [pyStrip (mergeFold cfg paras).2])) := by
  constructor
  · unfold chunk
    by_cases hempty : (pyStrip text).isEmpty = true
    · rw [if_pos hempty]
      have h0 : pyStrip text = [] := List.isEmpty_iff.mp hempty
      refine ⟨[], ?_, fun hc => absurd rfl hc⟩
      rw [h0]
      have hsp : splitParagraphs ([] : List Char) = [] := by
        simp [splitParagraphs, splitParasAux, show pyStrip [] = [] from rfl]
      rw [hsp]
      exact CoversInOrder.nil _
    · rw [if_neg hempty]
      by_cases hshort : (pyStrip text).length ≤ cfg.shortContentThreshold
      · rw [if_pos hshort]
        refine ⟨[], ?_, fun hc => absurd rfl hc⟩
        have h1 : ((splitParagraphs (pyStrip text)).map dewhite).flatten =
            dewhite (pyStrip text) :=
          (dewhite_flatten _).symm.trans (splitParagraphs_dewhite _)
        have h2 := coversInOrder_flatten ((splitParagraphs (pyStrip text)).map dewhite)
        rw [h1] at h2
        have h3 : dewhite ([pyStrip text].flatten ++ []) = dewhite (pyStrip text) := by
          simp
        rw [h3]
        exact h2
      · rw [if_neg hshort]
        have hfold := mergeFold_dewhite_chain cfg (splitParagraphs (pyStrip text))
          ([], []) [] (by simpa using CoversInOrder.nil (dewhite ([] ++ [])))
        simp only [List.nil_append] at hfold
        unfold mergeAndSplit
        by_cases hemit : (!(mergeFold cfg (splitParagraphs (pyStrip text))).2.isEmpty &&
            decide (cfg.minChunkSize ≤
              (pyStrip (mergeFold cfg (splitParagraphs (pyStrip text))).2).length)) = true
        · rw [if_pos hemit]
          refine ⟨[], ?_, fun hc => absurd rfl hc⟩
          have heq : dewhite (((mergeFold cfg (splitParagraphs (pyStrip text))).1 ++
              [pyStrip (mergeFold cfg (splitParagraphs (pyStrip text))).2]).flatten ++ []) =
              dewhite ((mergeFold cfg (splitParagraphs (pyStrip text))).1.flatten ++
                (mergeFold cfg (splitParagraphs (pyStrip text))).2) := by
            simp [List.flatten_append, dewhite_append, dewhite_pyStrip]
          rw [heq]
          exact hfold
        · rw [if_neg hemit]
          refine ⟨(mergeFold cfg (splitParagraphs (pyStrip text))).2, hfold, ?_⟩
          intro hne
          rw [Bool.and_eq_true, not_and_or] at hemit
          rcases hemit with h1 | h1
          · exfalso
            apply hne
            apply List.isEmpty_iff.mp
            simpa using h1
          · have : ¬ (cfg.minChunkSize ≤
                (pyStrip (mergeFold cfg (splitParagraphs (pyStrip text))).2).length) := by
              simpa using h1
            omega
  · intro paras
    constructor
    · intro hlt
      have hnotle : ¬ (cfg.minChunkSize ≤ (pyStrip (mergeFold cfg paras).2).length) := by
        omega
      simp [mergeAndSplit, hnotle]
    · intro hne hge
      have h1 : (mergeFold cfg paras).2.isEmpty = false := by
        rw [Bool.eq_false_iff]
        intro hc
        exact hne (List.isEmpty_iff.mp hc)
      simp [mergeAndSplit, h1, hge]

/-- Witness for C4: the final-chunk emission rule at two concrete
paragraph lists (one below, one above the minimum chunk size). -/
theorem chunk_lossless_witness :
    mergeAndSplit cfgW [['a', 'b']] = (mergeFold cfgW [['a', 'b']]).1 ∧
    mergeAndSplit cfgW [['a', 'b', 'c', 'd']] =
      (mergeFold cfgW [['a', 'b', 'c', 'd']]).1 ++
        [pyStrip (mergeFold cfgW [['a', 'b', 'c', 'd']]).2] :=
  ⟨((chunk_lossless cfgW []).2 [['a', 'b']]).1 (by decide),
   ((chunk_lossless cfgW []).2 [['a', 'b', 'c', 'd']]).2 (by decide) (by decide)⟩

end NotionRag
